import Mathlib

/-!
# Verification of the `fweh` image-framing pipeline

Shallow embedding of the repository's Rust sources (`utils.rs`, `background.rs`,
`shadow.rs`, `image_processing.rs`) and proofs about the claims of the
specification.

Conventions of the embedding:

* RGBA8 pixel buffers are modelled by `Image`: a width, a height and a total
  pixel function; theorems quantify over in-bounds coordinates.
* `f32` arithmetic is modelled exactly by `ℚ`, with the Rust casts
  (`as u32`, `as u8`, `as i64`, `f32::round`) made explicit as truncating /
  saturating / rounding functions on `ℚ`.  The claims settled here do not
  depend on `f32` rounding deviations from exact rational arithmetic.
* `u32`/`usize` arithmetic is modelled on `ℕ` (no wrap at `2^32`); this is
  faithful for every execution in which the Rust program does not overflow a
  `u32`, which holds for all representable images.  The `u16` arithmetic of
  the corner rasterizer is modelled with its wrap (`% 65536`) since its values
  are data-dependent; the range invariants proved below show the wraps are
  never exercised.
* Rust panics (assertion failures, `u32` underflow) are modelled by `Option`
  (`none` = panic); Rust `Result` errors are modelled by `Except String`.
-/

namespace Fweh

/-- `as u32` / `as usize` on a nonnegative-or-saturating `f32` value:
truncation toward zero, negative values saturate to `0`. -/
def u32ofRat (q : ℚ) : ℕ := (⌊q⌋).toNat

/-- `as u8` on an `f32` value: truncation toward zero with saturation
to `[0, 255]`. -/
def u8ofInt (n : ℤ) : ℕ := (min n 255).toNat

/-- `as u8` composed with truncation toward zero of a rational
(for nonnegative arguments this is the floor; negatives saturate to 0). -/
def u8ofRat (q : ℚ) : ℕ := (min ⌊q⌋ 255).toNat

/-- `as i64` on an `f32` value: truncation toward zero. -/
def i64ofRat (q : ℚ) : ℤ := if 0 ≤ q then ⌊q⌋ else -⌊-q⌋

/-- `f32::round`: rounding half away from zero. -/
def f32round (q : ℚ) : ℤ := if 0 ≤ q then ⌊q + 1/2⌋ else -⌊-q + 1/2⌋

/-- An RGBA8 pixel (each channel conceptually in `[0,255]`). -/
structure Pixel where
  r : ℕ
  g : ℕ
  b : ℕ
  a : ℕ
deriving DecidableEq, Repr

/-- The all-zero pixel (`Rgba([0,0,0,0])`, the default of a fresh buffer). -/
def Pixel.zero : Pixel := ⟨0, 0, 0, 0⟩

/-- A rectangular RGBA8 pixel buffer (`image::RgbaImage`). -/
structure Image where
  w : ℕ
  h : ℕ
  pix : ℕ → ℕ → Pixel

/-- A 2D point with floating-point coordinates (`utils.rs::Point`). -/
structure Point where
  x : ℚ
  y : ℚ
deriving DecidableEq, Repr

/-! ## `utils.rs` -/

/-- `utils.rs::calculate_padding`: canvas size and padding for a target
aspect ratio and scale percentage. -/
def calculate_padding (width height : ℕ) (target_ratio scale : ℚ) :
    ℕ × ℕ × ℕ × ℕ × ℕ × ℕ :=
  let original_ratio : ℚ := (width : ℚ) / (height : ℚ)
  let scale_factor : ℚ := scale / 100
  let wh : ℕ × ℕ :=
    if original_ratio < target_ratio then
      let nh := u32ofRat ((height : ℚ) * scale_factor)
      (u32ofRat ((nh : ℚ) * target_ratio), nh)
    else
      let nw := u32ofRat ((width : ℚ) * scale_factor)
      (nw, u32ofRat ((nw : ℚ) / target_ratio))
  let pad_width := wh.1 - u32ofRat ((width : ℚ) * scale_factor)
  let pad_height := wh.2 - u32ofRat ((height : ℚ) * scale_factor)
  let pad_left := pad_width / 2
  let pad_top := pad_height / 2
  (wh.1, wh.2, pad_left, pad_width - pad_left, pad_top, pad_height - pad_top)

/-- `utils.rs::gcd`, written with explicit fuel (the source recurses on
`gcd b (a % b)`; fuel `b + 1` always suffices since the second argument
strictly decreases). -/
def gcdAux : ℕ → ℕ → ℕ → ℕ
  | 0, a, _ => a
  | fuel + 1, a, b => if b = 0 then a else gcdAux fuel b (a % b)

/-- `utils.rs::gcd`. -/
def gcdR (a b : ℕ) : ℕ := gcdAux (b + 1) a b

/-- `utils.rs::calculate_aspect_ratio`: the reduced aspect ratio. -/
def calculate_aspect_ratio (width height : ℕ) : ℕ × ℕ :=
  let divisor := gcdR width height
  (width / divisor, height / divisor)

/-! ## `background.rs`: color parsing -/

/-- Value of one hexadecimal digit. -/
def hexDigitVal (c : Char) : Option ℕ :=
  if '0' ≤ c ∧ c ≤ '9' then some (c.toNat - '0'.toNat)
  else if 'a' ≤ c ∧ c ≤ 'f' then some (c.toNat - 'a'.toNat + 10)
  else if 'A' ≤ c ∧ c ≤ 'F' then some (c.toNat - 'A'.toNat + 10)
  else none

/-- `u8::from_str_radix(s, 16)`: an optional leading `+`, then at least one
hex digit, with overflow beyond `u8` an error. -/
def parseHexByte (cs : List Char) : Option ℕ :=
  let ds := match cs with
    | '+' :: rest => rest
    | other => other
  match ds with
  | [] => none
  | _ =>
    ds.foldl
      (fun acc c =>
        match acc, hexDigitVal c with
        | some v, some d => if 16 * v + d ≤ 255 then some (16 * v + d) else none
        | _, _ => none)
      (some 0)

/-- `background.rs::parse_color`: `#RGB`, `#RRGGBB`, `#RRGGBBAA` hex forms and
the fixed named-color set.  `none` models the `anyhow` error. -/
def parse_color (color : String) : Option Pixel :=
  match color.data with
  | '#' :: _ =>
    -- `trim_start_matches('#')` removes every leading `#`
    let hex := color.data.dropWhile (· = '#')
    if hex.length = 6 then
      match parseHexByte (hex.take 2), parseHexByte ((hex.drop 2).take 2),
            parseHexByte ((hex.drop 4).take 2) with
      | some r, some g, some b => some ⟨r, g, b, 255⟩
      | _, _, _ => none
    else if hex.length = 8 then
      match parseHexByte (hex.take 2), parseHexByte ((hex.drop 2).take 2),
            parseHexByte ((hex.drop 4).take 2), parseHexByte ((hex.drop 6).take 2) with
      | some r, some g, some b, some a => some ⟨r, g, b, a⟩
      | _, _, _, _ => none
    else if hex.length = 3 then
      match parseHexByte (hex.take 1), parseHexByte ((hex.drop 1).take 1),
            parseHexByte ((hex.drop 2).take 1) with
      | some r, some g, some b => some ⟨r * 17, g * 17, b * 17, 255⟩
      | _, _, _ => none
    else none
  | _ =>
    let lower : String := ⟨color.data.map Char.toLower⟩
    if lower = "black" then some ⟨0, 0, 0, 255⟩
    else if lower = "white" then some ⟨255, 255, 255, 255⟩
    else if lower = "red" then some ⟨255, 0, 0, 255⟩
    else if lower = "green" then some ⟨0, 255, 0, 255⟩
    else if lower = "blue" then some ⟨0, 0, 255, 255⟩
    else if lower = "yellow" then some ⟨255, 255, 0, 255⟩
    else if lower = "cyan" then some ⟨0, 255, 255, 255⟩
    else if lower = "magenta" then some ⟨255, 0, 255, 255⟩
    else if lower = "transparent" then some ⟨0, 0, 0, 0⟩
    else none

/-- `str::split('-')` on the character list. -/
def splitDash : List Char → List (List Char)
  | [] => [[]]
  | c :: rest =>
    if c = '-' then [] :: splitDash rest
    else match splitDash rest with
      | [] => [[c]]
      | part :: parts => (c :: part) :: parts

/-- `background.rs::parse_gradient`: split on `-` and resolve each stop. -/
def parse_gradient (gradient : String) : Option (List Pixel) :=
  (splitDash gradient.data).foldr
    (fun part acc =>
      match parse_color ⟨part⟩, acc with
      | some c, some cs => some (c :: cs)
      | _, _ => none)
    (some [])

/-- `background.rs::interpolate_color` (per channel:
`(a*(1-t) + b*t).round() as u8`). -/
def interpolate_color (c1 c2 : Pixel) (t : ℚ) : Pixel :=
  let lerp : ℕ → ℕ → ℕ := fun a b =>
    u8ofInt (f32round ((a : ℚ) * (1 - t) + (b : ℚ) * t))
  ⟨lerp c1.r c2.r, lerp c1.g c2.g, lerp c1.b c2.b, lerp c1.a c2.a⟩

/-! ## `background.rs`: background generation -/

/-- `background.rs::BackgroundType`.  The `Image` variant carries the buffer
the external load collaborator yields (file I/O is out of scope). -/
inductive BackgroundType where
  | color (spec : String)
  | gradient (spec : String)
  | image (loaded : Image)

/-- `background.rs::create_color_background`: fill every pixel with the
resolved color. -/
def create_color_background (width height : ℕ) (color : String) :
    Except String Image :=
  match parse_color color with
  | none => .error ("Unknown color name: " ++ color)
  | some rgba => .ok ⟨width, height, fun _ _ => rgba⟩

/-- The stop index of `create_gradient_background`'s row computation:
`(progress * (len - 1)) as usize` with `progress = y / height`. -/
def gradientIndex (len height y : ℕ) : ℕ :=
  u32ofRat ((y : ℚ) / (height : ℚ) * ((len : ℚ) - 1))

/-- The bracketing next stop index: `(index + 1).min(len - 1)`. -/
def gradientNextIndex (len height y : ℕ) : ℕ :=
  min (gradientIndex len height y + 1) (len - 1)

/-- The per-row color of `create_gradient_background`: locate the bracketing
stop pair and interpolate.  Out-of-range list access (which in Rust would
panic) falls back to `Pixel.zero`; the bounds proof below shows it is never
exercised. -/
def gradientRowColor (colors : List Pixel) (height y : ℕ) : Pixel :=
  let progress : ℚ := (y : ℚ) / (height : ℚ)
  let index : ℕ := gradientIndex colors.length height y
  let next_index : ℕ := gradientNextIndex colors.length height y
  let local_progress : ℚ := progress * ((colors.length : ℚ) - 1) - (index : ℚ)
  interpolate_color (colors.getD index Pixel.zero) (colors.getD next_index Pixel.zero)
    local_progress

/-- `background.rs::create_gradient_background`: a vertical linear gradient,
each row horizontally uniform.  Pixels are written only in bounds (the buffer
starts out all-zero). -/
def create_gradient_background (width height : ℕ) (gradient : String) :
    Except String Image :=
  match parse_gradient gradient with
  | none => .error ("Unknown color name: " ++ gradient)
  | some colors =>
    if colors.length < 2 then .error "Gradient needs at least two colors"
    else
      .ok ⟨width, height, fun x y =>
        if x < width ∧ y < height then gradientRowColor colors height y
        else Pixel.zero⟩

/-- `background.rs::create_background`: dispatch on the background kind.
For the `image` kind, the external `resize_to_fill` collaborator is modelled
as yielding a buffer of exactly the requested dimensions. -/
def create_background (new_width new_height : ℕ) (background : BackgroundType) :
    Except String Image :=
  match background with
  | .color c => create_color_background new_width new_height c
  | .gradient g => create_gradient_background new_width new_height g
  | .image loaded => .ok ⟨new_width, new_height, loaded.pix⟩

/-! ## `shadow.rs` -/

/-- `shadow.rs::ShadowOptions`. -/
structure ShadowOptions where
  offset : Point
  color : String
  radius : ℚ
  opacity : ℚ

/-- `shadow.rs::blend`: `(bg*(1-alpha) + fg*alpha) as u8`. -/
def shadowBlend (bg fg : ℕ) (alpha : ℚ) : ℕ :=
  u8ofRat ((bg : ℚ) * (1 - alpha) + (fg : ℚ) * alpha)

/-- The in-range 3×3 sample positions of `box_blur` at `(x, y)`:
`sample = (coord + k).saturating_sub(1)` for `k ∈ {0,1,2}`, skipped when it
falls beyond the right/bottom edge (the saturating subtraction duplicates
border samples at the top/left edge). -/
def blurSamples (w h x y : ℕ) : List (ℕ × ℕ) :=
  ((List.range 3).map fun ky =>
    if y + ky - 1 < h then
      ((List.range 3).map fun kx =>
        if x + kx - 1 < w then [(x + kx - 1, y + ky - 1)] else []).flatten
    else []).flatten

/-- `shadow.rs::box_blur`: 3×3 box blur with edge clamping; each channel is
the truncated mean of the in-range samples. -/
def box_blur (image : Image) : Image :=
  ⟨image.w, image.h, fun x y =>
    if x < image.w ∧ y < image.h then
      let samples := blurSamples image.w image.h x y
      let count := samples.length
      if 0 < count then
        let total : (Pixel → ℕ) → ℕ := fun sel =>
          samples.foldl (fun acc pos => acc + sel (image.pix pos.1 pos.2)) 0
        ⟨total Pixel.r / count, total Pixel.g / count,
         total Pixel.b / count, total Pixel.a / count⟩
      else Pixel.zero
    else Pixel.zero⟩

/-- `shadow.rs::gaussian_blur`: `ceil(radius / 2)` iterated box blurs. -/
def gaussian_blur (image : Image) (radius : ℚ) : Image :=
  (⌈radius / 2⌉).toNat.iterate box_blur image

/-- `shadow.rs::add_drop_shadow`.  The buffer-building loops of the source
write each target pixel at most once and are rendered pointwise; fresh
buffers (`ImageBuffer::new`) default to `Pixel.zero`. -/
def add_drop_shadow (image : Image) (options : ShadowOptions) :
    Except String Image :=
  match parse_color options.color with
  | none => .error ("Invalid shadow color: " ++ options.color)
  | some shadow_color =>
    let off := u32ofRat options.radius
    let shadow_width := image.w + 2 * off
    let shadow_height := image.h + 2 * off
    -- alpha mask: the source's alpha silhouette at offset (off, off), RGB white
    let alpha_mask : Image :=
      ⟨shadow_width, shadow_height, fun sx sy =>
        if off ≤ sx ∧ sx < off + image.w ∧ off ≤ sy ∧ sy < off + image.h ∧
            sx < shadow_width ∧ sy < shadow_height then
          ⟨255, 255, 255,
            u8ofRat (((image.pix (sx - off) (sy - off)).a : ℚ) / 255 * 255)⟩
        else Pixel.zero⟩
    let blurred_mask := gaussian_blur alpha_mask options.radius
    -- recolor with the shadow color, scale alpha by the opacity
    let shadow_image : Image :=
      ⟨shadow_width, shadow_height, fun x y =>
        if x < shadow_width ∧ y < shadow_height then
          ⟨shadow_color.r, shadow_color.g, shadow_color.b,
            u8ofRat (min (((blurred_mask.pix x y).a : ℚ) * options.opacity) 255)⟩
        else Pixel.zero⟩
    let final_width := shadow_width + u32ofRat |options.offset.x|
    let final_height := shadow_height + u32ofRat |options.offset.y|
    let shadow_pos_x := if options.offset.x < 0 then u32ofRat (-options.offset.x) else 0
    let shadow_pos_y := if options.offset.y < 0 then u32ofRat (-options.offset.y) else 0
    -- draw the shadow layer at (shadow_pos + max(offset, 0))
    let dx := shadow_pos_x + u32ofRat (max options.offset.x 0)
    let dy := shadow_pos_y + u32ofRat (max options.offset.y 0)
    let withShadow : Image :=
      ⟨final_width, final_height, fun fx fy =>
        if dx ≤ fx ∧ fx < dx + shadow_width ∧ dy ≤ fy ∧ fy < dy + shadow_height ∧
            fx < final_width ∧ fy < final_height then
          shadow_image.pix (fx - dx) (fy - dy)
        else Pixel.zero⟩
    -- composite the original image over the shadow (skipping alpha-0 pixels)
    let ix := shadow_pos_x + off
    let iy := shadow_pos_y + off
    let final_image : Image :=
      ⟨final_width, final_height, fun fx fy =>
        if ix ≤ fx ∧ fx < ix + image.w ∧ iy ≤ fy ∧ fy < iy + image.h ∧
            fx < final_width ∧ fy < final_height ∧
            0 < (image.pix (fx - ix) (fy - iy)).a then
          let src := image.pix (fx - ix) (fy - iy)
          let existing := withShadow.pix fx fy
          let alpha : ℚ := (src.a : ℚ) / 255
          ⟨shadowBlend existing.r src.r alpha, shadowBlend existing.g src.g alpha,
           shadowBlend existing.b src.b alpha, shadowBlend existing.a src.a alpha⟩
        else withShadow.pix fx fy⟩
    .ok final_image

/-! ## `image_processing.rs`: the corner-rounding rasterizer

`border_radius` is a midpoint-circle rasterizer at 16× supersampling; its
imperative loop is embedded as a list of alpha operations generated by a
state-machine walk, applied in program order. -/

/-- One write of `border_radius`: either zero the alpha at a position, or
blend it with an emitted coverage value.  Positions are the arguments the
source passes to the `coordinates` closure. -/
inductive AOp where
  | zero (pos : ℕ × ℕ)
  | scale (v : ℕ) (pos : ℕ × ℕ)
deriving DecidableEq, Repr

/-- The mutable state of `border_radius`'s loop. -/
structure WalkSt where
  x : ℕ
  y : ℕ
  p : ℤ
  alpha : ℕ
  skip : Bool
deriving DecidableEq, Repr

/-- The inner `for _ in 0..16` loop of `border_radius`: `k` iterations remain;
returns the emitted draw operations, the final state, and whether `break 'l`
fired.  `u16` additions wrap at 65536 as in Rust release mode. -/
def phaseStep (r0 : ℕ) : ℕ → WalkSt → List AOp × WalkSt × Bool
  | 0, s => ([], s, false)
  | k + 1, s =>
    if s.y ≤ s.x then ([], ⟨s.x, s.y, s.p, s.alpha, false⟩, true)
    else
      let a1 := (s.alpha + (s.y % 16 + 1)) % 65536
      if s.p < 0 then
        phaseStep r0 k ⟨s.x + 1, s.y, s.p + (2 * (s.x + 1) + 2 : ℕ), a1, false⟩
      else
        let p' := s.p - (2 * (s.y - (s.x + 1)) + 2 : ℕ)
        if s.y % 16 = 0 then
          let res := phaseStep r0 k
            ⟨s.x + 1, s.y - 1, p', (s.x + 1) % 16 * 16, true⟩
          (AOp.scale a1 (r0 - s.x / 16, r0 - s.y / 16) ::
           AOp.scale a1 (r0 - s.y / 16, r0 - s.x / 16) :: res.1, res.2)
        else
          phaseStep r0 k ⟨s.x + 1, s.y - 1, p', a1, false⟩

/-- The alpha-clearing writes at the top of the outer loop: the column below
the current position and its mirror. -/
def zeroOpsCol (r0 c ytop : ℕ) : List AOp :=
  (List.range' (ytop / 16 + 1) (r0 - (ytop / 16 + 1))).map
    fun j => AOp.zero (r0 - c, r0 - j)

/-- Mirrored variant of `zeroOpsCol`. -/
def zeroOpsRow (r0 c ytop : ℕ) : List AOp :=
  (List.range' (ytop / 16 + 1) (r0 - (ytop / 16 + 1))).map
    fun i => AOp.zero (r0 - i, r0 - c)

/-- The top of `border_radius`'s outer loop: clear below/right of the current
position, then (unless `skip_draw`) emit the column's accumulated coverage
for the pixel just passed and reset the accumulator. -/
def topOps (r0 : ℕ) (s : WalkSt) : List AOp × WalkSt :=
  let zs := zeroOpsCol r0 (s.x / 16) s.y ++ zeroOpsRow r0 (s.x / 16) s.y
  if s.skip then (zs, s)
  else
    (zs ++ [AOp.scale s.alpha (r0 - (s.x / 16 - 1), r0 - s.y / 16),
            AOp.scale s.alpha (r0 - s.y / 16, r0 - (s.x / 16 - 1))],
     ⟨s.x, s.y, s.p, 0, s.skip⟩)

/-- One iteration of the outer `'l: loop`. -/
def loopIter (r0 : ℕ) (s : WalkSt) : List AOp × WalkSt × Bool :=
  let top := topOps r0 s
  let res := phaseStep r0 16 top.2
  (top.1 ++ res.1, res.2)

/-- The outer loop, with fuel (each non-breaking iteration decreases
`y - x` by at least 16, so `r0 + 2` units of fuel always reach the break). -/
def walkLoop (r0 : ℕ) : ℕ → WalkSt → List AOp × WalkSt
  | 0, s => ([], s)
  | f + 1, s =>
    let res := loopIter r0 s
    if res.2.2 then (res.1, res.2.1)
    else
      let rest := walkLoop r0 f res.2.1
      (res.1 ++ rest.1, rest.2)

/-- The post-loop corrective draw for the corner pixel straddling the
diagonal (`alpha' = 2*alpha - s*s`, `u16` wrapping subtraction). -/
def tailOps (r0 : ℕ) (s : WalkSt) : List AOp :=
  if s.x / 16 = s.y / 16 then
    let a1 := if s.x = s.y then (s.alpha + (s.y % 16 + 1)) % 65536 else s.alpha
    let sq := (s.y % 16 + 1) * (s.y % 16 + 1)
    [AOp.scale ((2 * a1 % 65536 + 65536 - sq) % 65536) (r0 - s.x / 16, r0 - s.y / 16)]
  else []

/-- The final clearing of the remaining square of content in the corner. -/
def squareOps (r0 yf : ℕ) : List AOp :=
  (List.range' (yf / 16 + 1) (r0 - (yf / 16 + 1))).flatMap fun i =>
    (List.range' (yf / 16 + 1) (r0 - (yf / 16 + 1))).map fun j =>
      AOp.zero (r0 - i, r0 - j)

/-- All writes of `image_processing.rs::border_radius` for radius `r0`,
in program order (empty for `r0 = 0`, matching the early return). -/
def borderRadiusOps (r0 : ℕ) : List AOp :=
  if r0 = 0 then []
  else
    let s0 : WalkSt := ⟨0, 16 * r0 - 1, 2 - (16 * r0 : ℤ), 0, true⟩
    let res := walkLoop r0 (r0 + 2) s0
    res.1 ++ tailOps r0 res.2 ++ squareOps r0 res.2.y

/-- The alpha blend of `border_radius`'s `draw` closure:
`(alpha * old + 128) / 256` in wrapping `u16` arithmetic, cast `as u8`. -/
def scaleAlpha (v old : ℕ) : ℕ := (v * old % 65536 + 128) % 65536 / 256 % 256

/-- Overwrite the alpha channel at one position. -/
def setAlphaAt (img : Image) (pos : ℕ × ℕ) (a : ℕ) : Image :=
  ⟨img.w, img.h, fun x y =>
    if (x, y) = pos then
      ⟨(img.pix x y).r, (img.pix x y).g, (img.pix x y).b, a⟩
    else img.pix x y⟩

/-- Apply one write through a corner's coordinate map. -/
def applyAOp (coord : ℕ × ℕ → ℕ × ℕ) (img : Image) : AOp → Image
  | .zero pos => setAlphaAt img (coord pos) 0
  | .scale v pos =>
    setAlphaAt img (coord pos)
      (scaleAlpha v ((img.pix (coord pos).1 (coord pos).2).a))

/-- `image_processing.rs::border_radius`: apply all writes through the
corner's coordinate-mapping closure. -/
def border_radius (img : Image) (r0 : ℕ) (coord : ℕ × ℕ → ℕ × ℕ) : Image :=
  (borderRadiusOps r0).foldl (applyAOp coord) img

/-- `image_processing.rs::round`: assert the corner-radii invariant
(`none` models the panic), then round the four corners in order
top-left, top-right, bottom-right, bottom-left. -/
def roundIm (img : Image) (radii : ℕ × ℕ × ℕ × ℕ) : Option Image :=
  let width := img.w
  let height := img.h
  if radii.1 + radii.2.1 ≤ width ∧ radii.2.2.2 + radii.2.2.1 ≤ width ∧
      radii.1 + radii.2.2.2 ≤ height ∧ radii.2.1 + radii.2.2.1 ≤ height then
    let i1 := border_radius img radii.1 (fun ab => (ab.1 - 1, ab.2 - 1))
    let i2 := border_radius i1 radii.2.1 (fun ab => (width - ab.1, ab.2 - 1))
    let i3 := border_radius i2 radii.2.2.1 (fun ab => (width - ab.1, height - ab.2))
    let i4 := border_radius i3 radii.2.2.2 (fun ab => (ab.1 - 1, height - ab.2))
    some i4
  else none

/-- `image_processing.rs::round_corners`:
`radius = (min(w,h) * radius_percentage / 100) as u32`; identity when the
radius is zero. -/
def round_corners (image : Image) (radius_percentage : ℚ) : Option Image :=
  let radius := u32ofRat ((min image.w image.h : ℚ) * radius_percentage / 100)
  if radius = 0 then some image
  else roundIm image (radius, radius, radius, radius)

/-! ## `image_processing.rs`: the processing pipeline -/

/-- `image_processing.rs::AspectRatio`. -/
structure AspectRatio where
  w : ℕ
  h : ℕ
deriving DecidableEq, Repr

/-- `AspectRatio::as_f32`. -/
def AspectRatio.asRat (r : AspectRatio) : ℚ := (r.w : ℚ) / (r.h : ℚ)

/-- `image_processing.rs::ProcessingOptions`. -/
structure ProcessingOptions where
  scale : ℚ
  roundness : ℚ
  offset : Point
  shadow : Option ShadowOptions
  background : BackgroundType
  ratio : Option AspectRatio

/-- Modelled from the spec: the external compositor collaborator
`image::imageops::overlay` (§4.5) — writes `src` onto `dest` at integer
position `(ox, oy)`, clipping outside `dest`'s bounds, with straight
source-over alpha blending per channel; `dest`'s dimensions are unchanged. -/
def overlayIm (dest src : Image) (ox oy : ℤ) : Image :=
  ⟨dest.w, dest.h, fun x y =>
    if x < dest.w ∧ y < dest.h ∧ ox ≤ (x : ℤ) ∧ (x : ℤ) < ox + src.w ∧
        oy ≤ (y : ℤ) ∧ (y : ℤ) < oy + src.h then
      let sp := src.pix ((x : ℤ) - ox).toNat ((y : ℤ) - oy).toNat
      let dp := dest.pix x y
      let alpha : ℚ := (sp.a : ℚ) / 255
      ⟨shadowBlend dp.r sp.r alpha, shadowBlend dp.g sp.g alpha,
       shadowBlend dp.b sp.b alpha, shadowBlend dp.a sp.a alpha⟩
    else dest.pix x y⟩

/-- `image_processing.rs::process_image`, from the decoded input buffer to
the buffer handed to the external save collaborator.  `none` models a panic
(the corner-radii assertions), `Except.error` the `FramerError` returns; on
`Except.ok` the returned buffer is the one written to the output path. -/
def process_image (input : Image) (options : ProcessingOptions) :
    Option (Except String Image) :=
  let width := input.w
  let height := input.h
  let target_ratio : ℚ :=
    match options.ratio with
    | some r => r.asRat
    | none =>
      let wh := calculate_aspect_ratio width height
      (wh.1 : ℚ) / (wh.2 : ℚ)
  -- corner rounding
  match (if 0 < options.roundness then round_corners input options.roundness
         else some input) with
  | none => none
  | some processed =>
    -- drop shadow
    let shadowRes : Except String Image :=
      match options.shadow with
      | some shadow_options => add_drop_shadow processed shadow_options
      | none => .ok processed
    match shadowRes with
    | .error e => some (.error e)
    | .ok with_shadow =>
      let pad := calculate_padding width height target_ratio options.scale
      let new_width := pad.1
      let new_height := pad.2.1
      -- NOTE: the source passes the *source* dimensions here, not
      -- (new_width, new_height); see the claim about the canvas size.
      match create_background width height options.background with
      | .error e => some (.error e)
      | .ok background =>
        let px : ℚ := ((new_width : ℚ) - (width : ℚ)) / 2 + options.offset.x
        let py : ℚ := ((new_height : ℚ) - (height : ℚ)) / 2 + options.offset.y
        let composited :=
          if options.shadow.isSome then
            overlayIm background with_shadow (i64ofRat px) (i64ofRat py)
          else overlayIm background processed (i64ofRat px) (i64ofRat py)
        some (.ok composited)

/-! ## Generic lemmas about the rasterizer's write operations -/

/-- The position an operation writes to. -/
def AOp.pos : AOp → ℕ × ℕ
  | .zero p => p
  | .scale _ p => p

/-- Local (corner-relative) semantics of a write, on the alpha plane. -/
def applyLocal (f : ℕ × ℕ → ℕ) : AOp → ℕ × ℕ → ℕ
  | .zero q => fun q' => if q' = q then 0 else f q'
  | .scale v q => fun q' => if q' = q then scaleAlpha v (f q) else f q'

/-- Run a list of writes on the local alpha plane. -/
def runLocal (ops : List AOp) (f : ℕ × ℕ → ℕ) : ℕ × ℕ → ℕ :=
  ops.foldl applyLocal f

/-- The local coordinate box `[1, r0]²` all of `border_radius`'s writes
live in. -/
def inBox (r0 : ℕ) (q : ℕ × ℕ) : Prop :=
  1 ≤ q.1 ∧ q.1 ≤ r0 ∧ 1 ≤ q.2 ∧ q.2 ≤ r0

theorem scaleAlpha_zero (v : ℕ) : scaleAlpha v 0 = 0 := by
  simp [scaleAlpha]

theorem scaleAlpha_le {v old : ℕ} (hv : v ≤ 256) (hold : old ≤ 255) :
    scaleAlpha v old ≤ old := by
  have h1 : v * old ≤ 256 * 255 := Nat.mul_le_mul hv hold
  have h2 : v * old % 65536 = v * old := Nat.mod_eq_of_lt (by omega)
  have h3 : (v * old + 128) % 65536 = v * old + 128 := Nat.mod_eq_of_lt (by omega)
  have h4 : (v * old + 128) / 256 ≤ old := by
    have : v * old + 128 < 256 * (old + 1) := by nlinarith
    omega
  calc scaleAlpha v old = (v * old + 128) / 256 % 256 := by rw [scaleAlpha, h2, h3]
    _ ≤ (v * old + 128) / 256 := Nat.mod_le _ _
    _ ≤ old := h4

theorem applyAOp_w (coord : ℕ × ℕ → ℕ × ℕ) (img : Image) (op : AOp) :
    (applyAOp coord img op).w = img.w := by
  cases op <;> rfl

theorem applyAOp_h (coord : ℕ × ℕ → ℕ × ℕ) (img : Image) (op : AOp) :
    (applyAOp coord img op).h = img.h := by
  cases op <;> rfl

theorem foldl_applyAOp_w (coord : ℕ × ℕ → ℕ × ℕ) :
    ∀ (ops : List AOp) (img : Image),
      (ops.foldl (applyAOp coord) img).w = img.w := by
  intro ops
  induction ops with
  | nil => intro img; rfl
  | cons op rest ih =>
    intro img
    rw [List.foldl_cons, ih, applyAOp_w]

theorem foldl_applyAOp_h (coord : ℕ × ℕ → ℕ × ℕ) :
    ∀ (ops : List AOp) (img : Image),
      (ops.foldl (applyAOp coord) img).h = img.h := by
  intro ops
  induction ops with
  | nil => intro img; rfl
  | cons op rest ih =>
    intro img
    rw [List.foldl_cons, ih, applyAOp_h]

theorem applyAOp_rgb (coord : ℕ × ℕ → ℕ × ℕ) (img : Image) (op : AOp) (x y : ℕ) :
    ((applyAOp coord img op).pix x y).r = (img.pix x y).r ∧
    ((applyAOp coord img op).pix x y).g = (img.pix x y).g ∧
    ((applyAOp coord img op).pix x y).b = (img.pix x y).b := by
  cases op <;> simp only [applyAOp, setAlphaAt] <;> split <;> simp

theorem foldl_applyAOp_rgb (coord : ℕ × ℕ → ℕ × ℕ) :
    ∀ (ops : List AOp) (img : Image) (x y : ℕ),
      ((ops.foldl (applyAOp coord) img).pix x y).r = (img.pix x y).r ∧
      ((ops.foldl (applyAOp coord) img).pix x y).g = (img.pix x y).g ∧
      ((ops.foldl (applyAOp coord) img).pix x y).b = (img.pix x y).b := by
  intro ops
  induction ops with
  | nil => intro img x y; exact ⟨rfl, rfl, rfl⟩
  | cons op rest ih =>
    intro img x y
    obtain ⟨hr, hg, hb⟩ := ih (applyAOp coord img op) x y
    obtain ⟨hr', hg', hb'⟩ := applyAOp_rgb coord img op x y
    exact ⟨hr.trans hr', hg.trans hg', hb.trans hb'⟩

theorem foldl_applyAOp_untouched (coord : ℕ × ℕ → ℕ × ℕ) :
    ∀ (ops : List AOp) (img : Image) (x y : ℕ),
      (∀ op ∈ ops, coord op.pos ≠ (x, y)) →
      (ops.foldl (applyAOp coord) img).pix x y = img.pix x y := by
  intro ops
  induction ops with
  | nil => intro img x y _; rfl
  | cons op rest ih =>
    intro img x y hops
    rw [List.foldl_cons, ih _ x y (fun o ho => hops o (List.mem_cons_of_mem _ ho))]
    have hop := hops op (List.mem_cons_self _ _)
    cases op with
    | zero p =>
      simp only [applyAOp, setAlphaAt]
      rw [if_neg]
      intro hc
      exact hop (hc ▸ rfl)
    | scale v p =>
      simp only [applyAOp, setAlphaAt]
      rw [if_neg]
      intro hc
      exact hop (hc ▸ rfl)

/-- Simulation: through an injective-on-the-box coordinate map, the image
fold agrees with the local alpha-plane semantics. -/
theorem foldl_applyAOp_localSim (coord : ℕ × ℕ → ℕ × ℕ) (r0 : ℕ)
    (hinj : ∀ q q', inBox r0 q → inBox r0 q' → coord q = coord q' → q = q') :
    ∀ (ops : List AOp), (∀ op ∈ ops, inBox r0 op.pos) →
      ∀ (img : Image) (f : ℕ × ℕ → ℕ),
        (∀ q, inBox r0 q → f q = ((img.pix (coord q).1 (coord q).2).a)) →
        ∀ q, inBox r0 q →
          (((ops.foldl (applyAOp coord) img).pix (coord q).1 (coord q).2).a) =
            runLocal ops f q := by
  intro ops
  induction ops with
  | nil => intro _ img f hf q hq; exact (hf q hq).symm
  | cons op rest ih =>
    intro hops img f hf q hq
    have hop : inBox r0 op.pos := hops op (List.mem_cons_self _ _)
    have hrest : ∀ o ∈ rest, inBox r0 o.pos :=
      fun o ho => hops o (List.mem_cons_of_mem _ ho)
    rw [List.foldl_cons]
    show (((rest.foldl (applyAOp coord) (applyAOp coord img op)).pix _ _).a) =
      runLocal rest (applyLocal f op) q
    refine ih hrest (applyAOp coord img op) (applyLocal f op) ?_ q hq
    intro q' hq'
    cases op with
    | zero p =>
      have hp : inBox r0 p := hop
      simp only [applyLocal, applyAOp, setAlphaAt]
      by_cases hqp : q' = p
      · subst hqp
        rw [if_pos rfl, if_pos (by simp)]
      · rw [if_neg hqp, if_neg, hf q' hq']
        intro hc
        exact hqp (hinj q' p hq' hp (by
          have : ((coord q').1, (coord q').2) = coord p := hc
          simpa using this))
    | scale v p =>
      have hp : inBox r0 p := hop
      simp only [applyLocal, applyAOp, setAlphaAt]
      by_cases hqp : q' = p
      · subst hqp
        rw [if_pos rfl, if_pos (by simp), hf q' hq']
      · rw [if_neg hqp, if_neg, hf q' hq']
        intro hc
        exact hqp (hinj q' p hq' hp (by
          have : ((coord q').1, (coord q').2) = coord p := hc
          simpa using this))

/-- A write elsewhere, or a blend of a zero alpha, keeps a zero alpha. -/
theorem runLocal_zero_stays (q : ℕ × ℕ) :
    ∀ (ops : List AOp) (f : ℕ × ℕ → ℕ), f q = 0 → runLocal ops f q = 0 := by
  intro ops
  induction ops with
  | nil => intro f hf; exact hf
  | cons op rest ih =>
    intro f hf
    show runLocal rest (applyLocal f op) q = 0
    refine ih _ ?_
    cases op with
    | zero p =>
      simp only [applyLocal]
      split <;> simp [hf]
    | scale v p =>
      simp only [applyLocal]
      by_cases h : q = p
      · rw [if_pos h, ← h, hf, scaleAlpha_zero]
      · rw [if_neg h]; exact hf

/-- Once a position is cleared by some `zero` write, its alpha is `0` at the
end of the run. -/
theorem runLocal_eq_zero_of_mem (q : ℕ × ℕ) :
    ∀ (ops : List AOp) (f : ℕ × ℕ → ℕ), AOp.zero q ∈ ops →
      runLocal ops f q = 0 := by
  intro ops
  induction ops with
  | nil => intro f hf; cases hf
  | cons op rest ih =>
    intro f hmem
    rcases List.mem_cons.mp hmem with heq | hrest
    · subst heq
      exact runLocal_zero_stays q rest _ (by simp [applyLocal])
    · exact ih _ hrest

/-- If every `scale` value is at most `256`, a run never increases the alpha
of a position, provided the plane is `u8`-valued. -/
theorem runLocal_le (q : ℕ × ℕ) :
    ∀ (ops : List AOp) (f : ℕ × ℕ → ℕ),
      (∀ v p, AOp.scale v p ∈ ops → v ≤ 256) →
      (∀ q', f q' ≤ 255) →
      runLocal ops f q ≤ f q := by
  intro ops
  induction ops with
  | nil => intro f _ _; exact le_refl _
  | cons op rest ih =>
    intro f hops hf
    show runLocal rest (applyLocal f op) q ≤ f q
    have hops' : ∀ v p, AOp.scale v p ∈ rest → v ≤ 256 :=
      fun v p hm => hops v p (List.mem_cons_of_mem _ hm)
    have key : ∀ q', applyLocal f op q' ≤ f q' := by
      intro q'
      cases op with
      | zero p => simp only [applyLocal]; split <;> simp
      | scale v p =>
        simp only [applyLocal]
        by_cases h : q' = p
        · rw [if_pos h, h]
          exact scaleAlpha_le (hops v p (List.mem_cons_self _ _)) (hf _)
        · rw [if_neg h]
    exact le_trans (ih _ hops' (fun q' => le_trans (key q') (hf q'))) (key q)

/-! ## Concrete test buffers -/

/-- A `w × h` buffer of fully opaque red pixels. -/
def imgOpaque (w h : ℕ) : Image := ⟨w, h, fun _ _ => ⟨255, 0, 0, 255⟩⟩

/-- A 2×2 buffer whose alpha channel is asymmetric: only the top-left pixel
is opaque. -/
def imgAsym : Image :=
  ⟨2, 2, fun x y => if x = 0 ∧ y = 0 then ⟨0, 0, 0, 255⟩ else ⟨0, 0, 0, 0⟩⟩

/-! ## Claim C8: zero radius is the identity -/

/-- C8: `round_corners` with a radius percentage whose computed pixel radius
`⌊min(width,height) * radius_percent / 100⌋` is `0` (in particular
`radius_percent = 0`) returns the input buffer unchanged, byte for byte. -/
theorem c8_zero_radius_identity (image : Image) (radius_percentage : ℚ)
    (h : u32ofRat ((min image.w image.h : ℚ) * radius_percentage / 100) = 0) :
    round_corners image radius_percentage = some image := by
  unfold round_corners
  simp [h]

theorem c8_zero_radius_identity_witness :
    u32ofRat ((min (imgOpaque 2 2).w (imgOpaque 2 2).h : ℚ) * 0 / 100) = 0 ∧
      round_corners (imgOpaque 2 2) 0 = some (imgOpaque 2 2) := by
  have h : u32ofRat ((min (imgOpaque 2 2).w (imgOpaque 2 2).h : ℚ) * 0 / 100) = 0 := by
    norm_num [u32ofRat, imgOpaque]
  exact ⟨h, c8_zero_radius_identity (imgOpaque 2 2) 0 h⟩

/-! ## Claim C10: gradient stop indices stay in bounds -/

/-- C10: for at least two stops and height `H ≥ 1`, the gradient row
computation's stop index is strictly below the stop count and the bracketing
next index is at most `len - 1`, so `create_gradient_background` never
accesses the color list out of bounds. -/
theorem c10_gradient_index_in_bounds (len height y : ℕ)
    (hlen : 2 ≤ len) (hh : 1 ≤ height) (hy : y < height) :
    gradientIndex len height y < len ∧ gradientNextIndex len height y ≤ len - 1 := by
  constructor
  · unfold gradientIndex u32ofRat
    have hpos : (0 : ℚ) < (height : ℚ) := by exact_mod_cast hh
    have hlt : (y : ℚ) / (height : ℚ) < 1 := by
      rw [div_lt_one hpos]
      exact_mod_cast hy
    have hge : (0 : ℚ) ≤ (y : ℚ) / (height : ℚ) := by positivity
    have hlen1 : (0 : ℚ) ≤ (len : ℚ) - 1 := by
      have : (1 : ℚ) ≤ (len : ℚ) := by exact_mod_cast le_trans (by norm_num) hlen
      linarith
    have hq : (y : ℚ) / (height : ℚ) * ((len : ℚ) - 1) < (len : ℚ) - 1 + 1 := by
      nlinarith
    have hfl : ⌊(y : ℚ) / (height : ℚ) * ((len : ℚ) - 1)⌋ < (len : ℤ) := by
      have := Int.lt_floor_add_one ((y : ℚ) / (height : ℚ) * ((len : ℚ) - 1))
      have hle : (⌊(y : ℚ) / (height : ℚ) * ((len : ℚ) - 1)⌋ : ℚ) ≤ _ :=
        Int.floor_le ((y : ℚ) / (height : ℚ) * ((len : ℚ) - 1))
      have : (⌊(y : ℚ) / (height : ℚ) * ((len : ℚ) - 1)⌋ : ℚ) < (len : ℚ) := by
        linarith
      exact_mod_cast this
    omega
  · exact min_le_right _ _

theorem c10_gradient_index_in_bounds_witness :
    (2 ≤ 2 ∧ 1 ≤ 3 ∧ 2 < 3) ∧ gradientIndex 2 3 2 < 2 ∧ gradientNextIndex 2 3 2 ≤ 2 - 1 :=
  ⟨⟨le_refl 2, by norm_num, by norm_num⟩,
    c10_gradient_index_in_bounds 2 3 2 (le_refl 2) (by norm_num) (by norm_num)⟩

/-! ## Claim C3: shadow canvas dimensions -/

/-- C3 counterexample: for the fractional blur radius `1/2` (and zero
offset) on a 1×1 source, the shadow canvas is 1×1, while the claimed formula
`canvas_w = source_w + 2*radius + |offset.x|` gives `2`. -/
theorem c3_counterexample :
    (∃ out, add_drop_shadow (imgOpaque 1 1) ⟨⟨0, 0⟩, "black", 1/2, 1⟩ = .ok out ∧
      out.w = 1) ∧
    ((1 : ℚ) + 2 * (1/2) + |(0 : ℚ)| = 2) ∧ (1 : ℕ) ≠ 2 := by
  refine ⟨⟨_, rfl, ?_⟩, by norm_num, by norm_num⟩
  show (imgOpaque 1 1).w + 2 * u32ofRat (1/2) + u32ofRat |(0:ℚ)| = 1
  norm_num [u32ofRat, imgOpaque]

/-- C3 amended: the shadow canvas dimensions satisfy
`canvas_w = source_w + 2*trunc(radius) + trunc(|offset.x|)` (and the same
with heights and `offset.y`), where `trunc` is the Rust `as u32` cast the
source applies to the `f32` quantities. -/
theorem c3_shadow_canvas_dims (image : Image) (options : ShadowOptions)
    (out : Image) (h : add_drop_shadow image options = .ok out) :
    out.w = image.w + 2 * u32ofRat options.radius + u32ofRat |options.offset.x| ∧
    out.h = image.h + 2 * u32ofRat options.radius + u32ofRat |options.offset.y| := by
  unfold add_drop_shadow at h
  cases hp : parse_color options.color with
  | none => rw [hp] at h; cases h
  | some c =>
    rw [hp] at h
    cases h
    exact ⟨rfl, rfl⟩

theorem c3_shadow_canvas_dims_witness :
    ∃ out, add_drop_shadow (imgOpaque 1 1) ⟨⟨-3, 1⟩, "black", 2, 1/2⟩ = .ok out ∧
      out.w = 8 ∧ out.h = 6 := by
  refine ⟨_, rfl, ?_, ?_⟩
  · rw [(c3_shadow_canvas_dims (imgOpaque 1 1) ⟨⟨-3, 1⟩, "black", 2, 1/2⟩ _ rfl).1]
    norm_num [u32ofRat, imgOpaque]
    decide
  · rw [(c3_shadow_canvas_dims (imgOpaque 1 1) ⟨⟨-3, 1⟩, "black", 2, 1/2⟩ _ rfl).2]
    norm_num [u32ofRat, imgOpaque]
    decide

/-! ## Claim C4: the two-stop red→blue gradient -/

theorem u8ofInt_mono {n m : ℤ} (h : n ≤ m) : u8ofInt n ≤ u8ofInt m :=
  Int.toNat_le_toNat (min_le_min h (le_refl _))

theorem create_gradient_redblue (W H : ℕ) :
    create_gradient_background W H "red-blue" =
      .ok ⟨W, H, fun x y =>
        if x < W ∧ y < H then
          gradientRowColor [⟨255, 0, 0, 255⟩, ⟨0, 0, 255, 255⟩] H y
        else Pixel.zero⟩ := by
  rfl

/-- With exactly two stops the row color is the plain interpolation at
`t = y / height`. -/
theorem gradientRowColor_two (c1 c2 : Pixel) (H y : ℕ) (hH : 1 ≤ H) (hy : y < H) :
    gradientRowColor [c1, c2] H y =
      interpolate_color c1 c2 ((y : ℚ) / (H : ℚ)) := by
  have hpos : (0 : ℚ) < (H : ℚ) := by exact_mod_cast hH
  have hlt : (y : ℚ) / (H : ℚ) < 1 := by
    rw [div_lt_one hpos]; exact_mod_cast hy
  have hge : (0 : ℚ) ≤ (y : ℚ) / (H : ℚ) := by positivity
  have hidx : gradientIndex 2 H y = 0 := by
    unfold gradientIndex u32ofRat
    have h2 : ⌊(y : ℚ) / (H : ℚ) * (((2 : ℕ) : ℚ) - 1)⌋ = 0 := by
      rw [Int.floor_eq_zero_iff]
      constructor <;> [push_cast; push_cast] <;> nlinarith
    rw [h2]; rfl
  have hnext : gradientNextIndex 2 H y = 1 := by
    unfold gradientNextIndex
    rw [hidx]
    decide
  unfold gradientRowColor
  have hlen : ([c1, c2].length : ℕ) = 2 := rfl
  rw [hlen, hidx, hnext]
  norm_num

/-- Evaluate one channel interpolation when the exact value is nonnegative
and at most 255. -/
theorem lerp_eval (q : ℚ) (hq : 0 ≤ q) (hb : q ≤ 255) :
    u8ofInt (f32round q) = (⌊q + 1/2⌋).toNat := by
  unfold u8ofInt f32round
  rw [if_pos hq, min_eq_left]
  calc ⌊q + 1/2⌋ ≤ ⌊(255 : ℚ) + 1/2⌋ := Int.floor_le_floor (by linarith)
    _ = 255 := by norm_num

theorem interpolate_redblue_channels (t : ℚ) (h0 : 0 ≤ t) (h1 : t ≤ 1) :
    interpolate_color ⟨255, 0, 0, 255⟩ ⟨0, 0, 255, 255⟩ t =
      ⟨(⌊(255 : ℚ) * (1 - t) + 1/2⌋).toNat, 0, (⌊(255 : ℚ) * t + 1/2⌋).toNat, 255⟩ := by
  have g1 : (0 : ℚ) ≤ 255 * (1 - t) := by nlinarith
  have g3 : (0 : ℚ) ≤ 255 * t := by nlinarith
  have b1 : (255 : ℚ) * (1 - t) ≤ 255 := by nlinarith
  have b3 : (255 : ℚ) * t ≤ 255 := by nlinarith
  unfold interpolate_color
  simp only [Pixel.mk.injEq]
  refine ⟨?_, ?_, ?_, ?_⟩
  · rw [show ((255 : ℕ) : ℚ) * (1 - t) + ((0 : ℕ) : ℚ) * t = 255 * (1 - t) by push_cast; ring]
    exact lerp_eval _ g1 b1
  · rw [show ((0 : ℕ) : ℚ) * (1 - t) + ((0 : ℕ) : ℚ) * t = 0 by push_cast; ring]
    rw [lerp_eval 0 (le_refl 0) (by norm_num)]
    norm_num
  · rw [show ((0 : ℕ) : ℚ) * (1 - t) + ((255 : ℕ) : ℚ) * t = 255 * t by push_cast; ring]
    exact lerp_eval _ g3 b3
  · rw [show ((255 : ℕ) : ℚ) * (1 - t) + ((255 : ℕ) : ℚ) * t = 255 by push_cast; ring]
    rw [lerp_eval 255 (by norm_num) (le_refl _),
      show ⌊(255 : ℚ) + 1/2⌋ = 255 by norm_num]
    rfl

/-- C4 counterexample: for height `H = 1` (allowed by the claim's `H ≥ 1`)
the single row of the `[red, blue]` gradient is pure red, not pure blue:
the row computation interpolates at `t = y/H`, which never reaches `1`. -/
theorem c4_counterexample :
    ∃ g, create_gradient_background 1 1 "red-blue" = .ok g ∧
      g.pix 0 0 = ⟨255, 0, 0, 255⟩ ∧ (Pixel.mk 255 0 0 255) ≠ ⟨0, 0, 255, 255⟩ := by
  refine ⟨_, create_gradient_redblue 1 1, ?_, by decide⟩
  show (if 0 < 1 ∧ 0 < 1 then
      gradientRowColor [⟨255, 0, 0, 255⟩, ⟨0, 0, 255, 255⟩] 1 0 else Pixel.zero) =
    Pixel.mk 255 0 0 255
  rw [if_pos ⟨one_pos, one_pos⟩,
    gradientRowColor_two _ _ 1 0 (le_refl 1) one_pos,
    show ((0 : ℕ) : ℚ) / ((1 : ℕ) : ℚ) = 0 by norm_num,
    interpolate_redblue_channels 0 (le_refl 0) (by norm_num)]
  norm_num
  decide

/-- Cast a nonnegative integer's `toNat` back to `ℚ`. -/
theorem toNatQ (n : ℤ) (h : 0 ≤ n) : ((n.toNat : ℕ) : ℚ) = (n : ℚ) := by
  exact_mod_cast congrArg (Int.cast : ℤ → ℚ) (Int.toNat_of_nonneg h)

/-- C4 amended: for the two stops `[red, blue]` over height `H ≥ 1`, every
pixel of row 0 is pure red; row `H-1` is the rounded interpolation at
`t = (H-1)/H` — within `255/H + 1` per channel of pure blue, not pure blue;
every row is horizontally uniform; and the red/blue channels vary
antitonically/monotonically with the row while green and alpha stay fixed. -/
theorem c4_gradient_endpoints_monotone (W H : ℕ) (hH : 1 ≤ H) :
    ∃ g, create_gradient_background W H "red-blue" = .ok g ∧
      (∀ x, x < W → g.pix x 0 = ⟨255, 0, 0, 255⟩) ∧
      (∀ x, x < W →
        H * (g.pix x (H - 1)).r ≤ 255 + H ∧
        (g.pix x (H - 1)).b ≤ 255 ∧ H * (255 - (g.pix x (H - 1)).b) ≤ 255 + H ∧
        (g.pix x (H - 1)).g = 0 ∧ (g.pix x (H - 1)).a = 255) ∧
      (∀ x x' y, x < W → x' < W → y < H → g.pix x y = g.pix x' y) ∧
      (∀ x y y', x < W → y ≤ y' → y' < H →
        (g.pix x y').r ≤ (g.pix x y).r ∧ (g.pix x y).b ≤ (g.pix x y').b ∧
        (g.pix x y).g = (g.pix x y').g ∧ (g.pix x y).a = (g.pix x y').a) := by
  have hpos : (0 : ℚ) < (H : ℚ) := by exact_mod_cast hH
  refine ⟨_, create_gradient_redblue W H, ?_, ?_, ?_, ?_⟩
  · -- row 0 is pure red
    intro x hx
    dsimp only
    rw [if_pos ⟨hx, hH⟩, gradientRowColor_two _ _ H 0 hH hH,
      show ((0 : ℕ) : ℚ) / (H : ℚ) = 0 by norm_num,
      interpolate_redblue_channels 0 (le_refl 0) (by norm_num)]
    norm_num
    decide
  · -- row H-1 is within 255/H + 1 of pure blue on each channel
    intro x hx
    have hylt : H - 1 < H := by omega
    have ht0 : (0 : ℚ) ≤ ((H - 1 : ℕ) : ℚ) / (H : ℚ) := by positivity
    have ht1 : ((H - 1 : ℕ) : ℚ) / (H : ℚ) ≤ 1 := by
      rw [div_le_one hpos]
      exact_mod_cast le_of_lt hylt
    have hcast : ((H - 1 : ℕ) : ℚ) = (H : ℚ) - 1 := by
      push_cast [Nat.cast_sub hH]
      ring
    have hr : (255 : ℚ) * (1 - ((H - 1 : ℕ) : ℚ) / (H : ℚ)) = 255 / H := by
      rw [hcast]
      field_simp
    have hb : (255 : ℚ) * (((H - 1 : ℕ) : ℚ) / (H : ℚ)) = 255 - 255 / H := by
      rw [hcast]
      field_simp
      ring
    have hdle : (255 : ℚ) / H ≤ 255 := div_le_self (by norm_num) (by exact_mod_cast hH)
    have hdnn : (0 : ℚ) ≤ 255 / H := by positivity
    have hHhalf : (H : ℚ) * ((255 : ℚ) / H + 1/2) ≤ 255 + H := by
      have h255 : (H : ℚ) * ((255 : ℚ) / H) = 255 := by field_simp
      calc (H : ℚ) * ((255 : ℚ) / H + 1/2) = 255 + (H : ℚ) / 2 := by
            rw [mul_add, h255]; ring
        _ ≤ 255 + H := by linarith
    dsimp only
    rw [if_pos ⟨hx, hylt⟩, gradientRowColor_two _ _ H (H - 1) hH hylt,
      interpolate_redblue_channels _ ht0 ht1, hr, hb]
    have hrnn : (0 : ℤ) ≤ ⌊(255 : ℚ) / H + 1/2⌋ := Int.floor_nonneg.mpr (by positivity)
    have hbnn : (0 : ℤ) ≤ ⌊(255 : ℚ) - 255 / H + 1/2⌋ := Int.floor_nonneg.mpr (by linarith)
    have hbub : ⌊(255 : ℚ) - 255 / H + 1/2⌋ ≤ 255 := by
      have hq : (255 : ℚ) - 255 / H + 1/2 ≤ 255 + 1/2 := by linarith
      calc ⌊(255 : ℚ) - 255 / H + 1/2⌋ ≤ ⌊(255 : ℚ) + 1/2⌋ := Int.floor_le_floor hq
        _ = 255 := by norm_num
    have hble : (⌊(255 : ℚ) - 255 / H + 1/2⌋).toNat ≤ 255 := Int.toNat_le.mpr (by exact_mod_cast hbub)
    refine ⟨?_, hble, ?_, rfl, rfl⟩
    · -- H * r ≤ 255 + H
      have hq : (((⌊(255 : ℚ) / H + 1/2⌋).toNat : ℕ) : ℚ) ≤ 255 / H + 1/2 := by
        rw [toNatQ _ hrnn]
        exact Int.floor_le _
      have : (H : ℚ) * (((⌊(255 : ℚ) / H + 1/2⌋).toNat : ℕ) : ℚ) ≤ 255 + H :=
        le_trans (mul_le_mul_of_nonneg_left hq (le_of_lt hpos)) hHhalf
      exact_mod_cast this
    · -- H * (255 - b) ≤ 255 + H
      have hlow : (255 : ℚ) - 255 / H - 1/2 ≤ ((⌊(255 : ℚ) - 255 / H + 1/2⌋ : ℤ) : ℚ) := by
        have := Int.sub_one_lt_floor ((255 : ℚ) - 255 / H + 1/2)
        linarith
      have hsub : (((255 - (⌊(255 : ℚ) - 255 / H + 1/2⌋).toNat : ℕ)) : ℚ) =
          255 - (((⌊(255 : ℚ) - 255 / H + 1/2⌋).toNat : ℕ) : ℚ) := by
        push_cast [Nat.cast_sub hble]
        ring
      have hq : (((255 - (⌊(255 : ℚ) - 255 / H + 1/2⌋).toNat : ℕ)) : ℚ) ≤ 255 / H + 1/2 := by
        rw [hsub, toNatQ _ hbnn]
        linarith
      have : (H : ℚ) * (((255 - (⌊(255 : ℚ) - 255 / H + 1/2⌋).toNat : ℕ)) : ℚ) ≤ 255 + H :=
        le_trans (mul_le_mul_of_nonneg_left hq (le_of_lt hpos)) hHhalf
      exact_mod_cast this
  · -- rows are horizontally uniform
    intro x x' y hx hx' hy
    dsimp only
    rw [if_pos ⟨hx, hy⟩, if_pos ⟨hx', hy⟩]
  · -- channel monotonicity in the row index
    intro x y y' hx hyy hy'
    have hy : y < H := lt_of_le_of_lt hyy hy'
    have ht0 : ∀ z : ℕ, (0 : ℚ) ≤ (z : ℚ) / (H : ℚ) := fun z => by positivity
    have ht1 : ∀ z : ℕ, z < H → (z : ℚ) / (H : ℚ) ≤ 1 := fun z hz => by
      rw [div_le_one hpos]
      exact_mod_cast le_of_lt hz
    have hmono : (y : ℚ) / (H : ℚ) ≤ (y' : ℚ) / (H : ℚ) := by
      gcongr
    dsimp only
    rw [if_pos ⟨hx, hy'⟩, if_pos ⟨hx, hy⟩,
      gradientRowColor_two _ _ H y' hH hy', gradientRowColor_two _ _ H y hH hy,
      interpolate_redblue_channels _ (ht0 y') (ht1 y' hy'),
      interpolate_redblue_channels _ (ht0 y) (ht1 y hy)]
    refine ⟨?_, ?_, rfl, rfl⟩
    · exact Int.toNat_le_toNat (Int.floor_le_floor (by linarith))
    · exact Int.toNat_le_toNat (Int.floor_le_floor (by linarith))

theorem c4_gradient_endpoints_monotone_witness :
    (1 : ℕ) ≤ 2 ∧
      ∃ g, create_gradient_background 1 2 "red-blue" = .ok g ∧
        (∀ x, x < 1 → g.pix x 0 = ⟨255, 0, 0, 255⟩) := by
  refine ⟨by norm_num, ?_⟩
  obtain ⟨g, hg, hrow0, -⟩ := c4_gradient_endpoints_monotone 1 2 (by norm_num)
  exact ⟨g, hg, hrow0⟩

/-! ## Claim C1: the background is created at the wrong dimensions -/

theorem calculate_padding_concrete :
    calculate_padding 100 100 1 200 = (200, 200, 0, 0, 0, 0) := by
  unfold calculate_padding u32ofRat
  norm_num
  decide

set_option maxHeartbeats 2000000 in
/-- C1: on a 100×100 input with scale 200% and the default (source) aspect
ratio, the layout calculator demands a 200×200 canvas, and the pipeline's own
target ratio is the reduced source ratio 1; yet `process_image` creates the
background — and hence the final output buffer — at the source size 100×100,
because `create_background` is called with `(width, height)` instead of
`(new_width, new_height)`. -/
theorem c1_background_at_source_size :
    ∃ out,
      process_image (imgOpaque 100 100)
        ⟨200, 0, ⟨0, 0⟩, none, .color "black", none⟩ = some (.ok out) ∧
      out.w = 100 ∧ out.h = 100 ∧
      ((calculate_aspect_ratio 100 100).1 : ℚ) / ((calculate_aspect_ratio 100 100).2 : ℚ) = 1 ∧
      (calculate_padding 100 100 1 200).1 = 200 ∧
      (calculate_padding 100 100 1 200).2.1 = 200 ∧
      (100 : ℕ) ≠ 200 := by
  unfold process_image
  rw [if_neg (lt_irrefl (0 : ℚ))]
  dsimp only [imgOpaque, Option.isSome]
  rw [show create_background 100 100 (BackgroundType.color "black") =
    .ok ⟨100, 100, fun _ _ => ⟨0, 0, 0, 255⟩⟩ from rfl]
  dsimp only
  rw [if_neg Bool.false_ne_true]
  have har : calculate_aspect_ratio 100 100 = (1, 1) := by decide
  refine ⟨_, rfl, rfl, rfl, by rw [har]; norm_num,
    by rw [calculate_padding_concrete], by rw [calculate_padding_concrete],
    by norm_num⟩

/-! ## Claim C5: unresolvable shadow colors -/

theorem add_drop_shadow_error (img : Image) (so : ShadowOptions)
    (h : parse_color so.color = none) :
    add_drop_shadow img so = .error ("Invalid shadow color: " ++ so.color) := by
  unfold add_drop_shadow
  rw [h]

/-- C5: `add_drop_shadow` fails exactly when the shadow color string is
unresolvable, returning the descriptive shadow error before any buffer is
built; and a `process_image` call whose rounding stage succeeds propagates
that error as its result, so no output image is produced. -/
theorem c5_invalid_shadow_color (img : Image) (so : ShadowOptions)
    (options : ProcessingOptions) :
    ((∃ e, add_drop_shadow img so = .error e) ↔ parse_color so.color = none) ∧
    (options.shadow = some so → parse_color so.color = none →
      (0 < options.roundness → (round_corners img options.roundness).isSome) →
      process_image img options =
        some (.error ("Invalid shadow color: " ++ so.color))) := by
  constructor
  · constructor
    · rintro ⟨e, he⟩
      cases hp : parse_color so.color with
      | none => rfl
      | some c =>
        unfold add_drop_shadow at he
        rw [hp] at he
        cases he
    · intro hp
      exact ⟨_, add_drop_shadow_error img so hp⟩
  · intro hso hp hround
    unfold process_image
    by_cases hr : 0 < options.roundness
    · rw [if_pos hr]
      obtain ⟨pr, hpr⟩ := Option.isSome_iff_exists.mp (hround hr)
      rw [hpr, hso]
      simp only [add_drop_shadow_error pr so hp]
    · rw [if_neg hr, hso]
      simp only [add_drop_shadow_error img so hp]

theorem c5_invalid_shadow_color_witness :
    parse_color "not-a-color" = none ∧
      process_image (imgOpaque 1 1)
        ⟨100, 0, ⟨0, 0⟩, some ⟨⟨0, 0⟩, "not-a-color", 1, 1⟩, .color "black", none⟩ =
        some (.error ("Invalid shadow color: " ++ "not-a-color")) := by
  refine ⟨rfl, ?_⟩
  exact (c5_invalid_shadow_color (imgOpaque 1 1) ⟨⟨0, 0⟩, "not-a-color", 1, 1⟩
    ⟨100, 0, ⟨0, 0⟩, some ⟨⟨0, 0⟩, "not-a-color", 1, 1⟩, .color "black", none⟩).2
    rfl rfl (fun h => absurd h (by norm_num))

/-! ## Counterexamples to the mirror-symmetry and inscribed-ellipse claims -/

/-- C6 counterexample: on a 2×2 buffer whose only opaque pixel is the
top-left one, rounding all four corners with radius 1 (which satisfies the
`CornerRadii` invariant) leaves alpha 205 at the top-left pixel but alpha 0
at the top-right pixel — the corners are not mirror images, because each
corner's output depends on that corner's own input alpha. -/
theorem c6_counterexample :
    ∃ out, roundIm imgAsym (1, 1, 1, 1) = some out ∧
      (out.pix 0 0).a = 205 ∧ (out.pix 1 0).a = 0 ∧ (205 : ℕ) ≠ 0 := by
  refine ⟨_, rfl, ?_, ?_, by norm_num⟩ <;> decide

/-- C2 counterexample: with `r = 2 ≥ min(2,2)/2` on a 2×2 buffer the rounding
routine panics (its invariant assertions fail) instead of succeeding; and for
the 64×8 buffer with `r = 4 = min/2` (where it does succeed), the pixel cell
`[2,3) × [1,2)` lies strictly outside the inscribed ellipse of the rectangle
(its nearest corner `(3,2)` has `((3-32)/32)² + ((2-4)/4)² = 841/1024 + 1/4 > 1`)
yet keeps full alpha 255. -/
theorem c2_counterexample :
    roundIm (imgOpaque 2 2) (2, 2, 2, 2) = none ∧
    ((841 : ℚ) / 1024 + 1 / 4 > 1) ∧
    (∃ out, roundIm (imgOpaque 64 8) (4, 4, 4, 4) = some out ∧
      (out.pix 2 1).a = 255 ∧ (255 : ℕ) ≠ 0) := by
  refine ⟨rfl, by norm_num, _, rfl, ?_, by norm_num⟩
  decide

/-! ## Claim C9: rounding touches only the alpha channel -/

theorem roundIm_dims_rgb (img : Image) (radii : ℕ × ℕ × ℕ × ℕ) (out : Image)
    (h : roundIm img radii = some out) :
    out.w = img.w ∧ out.h = img.h ∧
    ∀ x y, (out.pix x y).r = (img.pix x y).r ∧
      (out.pix x y).g = (img.pix x y).g ∧ (out.pix x y).b = (img.pix x y).b := by
  unfold roundIm at h
  dsimp only at h
  split at h
  · cases h
    unfold border_radius
    refine ⟨?_, ?_, ?_⟩
    · rw [foldl_applyAOp_w, foldl_applyAOp_w, foldl_applyAOp_w, foldl_applyAOp_w]
    · rw [foldl_applyAOp_h, foldl_applyAOp_h, foldl_applyAOp_h, foldl_applyAOp_h]
    · intro x y
      obtain ⟨r4, g4, b4⟩ := foldl_applyAOp_rgb (fun ab => (ab.1 - 1, img.h - ab.2))
        (borderRadiusOps radii.2.2.2) _ x y
      obtain ⟨r3, g3, b3⟩ := foldl_applyAOp_rgb (fun ab => (img.w - ab.1, img.h - ab.2))
        (borderRadiusOps radii.2.2.1) _ x y
      obtain ⟨r2, g2, b2⟩ := foldl_applyAOp_rgb (fun ab => (img.w - ab.1, ab.2 - 1))
        (borderRadiusOps radii.2.1) _ x y
      obtain ⟨r1, g1, b1⟩ := foldl_applyAOp_rgb (fun ab => (ab.1 - 1, ab.2 - 1))
        (borderRadiusOps radii.1) _ x y
      exact ⟨(r4.trans r3).trans (r2.trans r1), (g4.trans g3).trans (g2.trans g1),
        (b4.trans b3).trans (b2.trans b1)⟩
  · cases h

/-- C9: whenever `round_corners` succeeds, the output buffer has the input's
dimensions and every pixel's R, G and B bytes are unchanged — corner rounding
modifies only the alpha channel. -/
theorem c9_rgb_and_dims_preserved (img : Image) (pct : ℚ) (out : Image)
    (h : round_corners img pct = some out) :
    out.w = img.w ∧ out.h = img.h ∧
    ∀ x y, (out.pix x y).r = (img.pix x y).r ∧
      (out.pix x y).g = (img.pix x y).g ∧ (out.pix x y).b = (img.pix x y).b := by
  unfold round_corners at h
  dsimp only at h
  split at h
  · cases h
    exact ⟨rfl, rfl, fun x y => ⟨rfl, rfl, rfl⟩⟩
  · exact roundIm_dims_rgb img _ out h

theorem round_corners_asym_50 :
    round_corners imgAsym 50 = roundIm imgAsym (1, 1, 1, 1) := by
  have hrad : u32ofRat ((min imgAsym.w imgAsym.h : ℚ) * 50 / 100) = 1 := by
    norm_num [u32ofRat, imgAsym]
  unfold round_corners
  dsimp only
  rw [hrad, if_neg one_ne_zero]

theorem c9_rgb_and_dims_preserved_witness :
    ∃ out, round_corners imgAsym 50 = some out ∧
      out.w = imgAsym.w ∧ out.h = imgAsym.h ∧
      (out.pix 0 0).r = (imgAsym.pix 0 0).r := by
  refine ⟨_, round_corners_asym_50.trans rfl, ?_⟩
  obtain ⟨hw, hh, hrgb⟩ :=
    c9_rgb_and_dims_preserved imgAsym 50 _ (round_corners_asym_50.trans rfl)
  exact ⟨hw, hh, (hrgb 0 0).1⟩

/-! ## Claim C7: the coverage accumulator and the emitted alpha range

Invariants of the inner loop, with `k` iterations remaining in the phase:
the accumulator is at most `16 * (steps already done)`, the walk position is
phase-aligned (`x % 16 = 16 - k`), `x ≤ y + 1`, a pending `skip_draw` means
the accumulator was just reset to `16 * (x % 16)`, and inside the diagonal
cell the accumulator dominates `(x % 16) * (y % 16 + 2) / 2`. -/

/-- Entry invariant of `phaseStep` with `k` iterations remaining. -/
def PhaseInv (k : ℕ) (s : WalkSt) : Prop :=
  k ≤ 16 ∧
  s.alpha ≤ 16 * (16 - k) ∧
  s.x % 16 = (16 - k) % 16 ∧
  s.x ≤ s.y + 1 ∧
  (s.skip = true → s.alpha = 16 * (s.x % 16)) ∧
  (k < 16 → s.skip = true ∨ 1 ≤ s.alpha) ∧
  (s.x / 16 = s.y / 16 → s.x % 16 * (s.y % 16 + 2) ≤ 2 * s.alpha)

/-- Exit facts of `phaseStep`: emitted values are in `[1, 256]`; if the loop
completed, the state is aligned for the next phase top; if it broke, the
state satisfies the bounds the tail draw needs. -/
theorem phaseStep_alpha (r0 : ℕ) :
    ∀ (k : ℕ) (s : WalkSt), PhaseInv k s →
      (∀ v p, AOp.scale v p ∈ (phaseStep r0 k s).1 → 1 ≤ v ∧ v ≤ 256) ∧
      ((phaseStep r0 k s).2.2 = false →
        (phaseStep r0 k s).2.1.alpha ≤ 256 ∧
        ((phaseStep r0 k s).2.1.skip = true → (phaseStep r0 k s).2.1.alpha = 0) ∧
        ((phaseStep r0 k s).2.1.skip = true ∨ 1 ≤ (phaseStep r0 k s).2.1.alpha) ∧
        (phaseStep r0 k s).2.1.x % 16 = 0 ∧
        (phaseStep r0 k s).2.1.x ≤ (phaseStep r0 k s).2.1.y + 1) ∧
      ((phaseStep r0 k s).2.2 = true →
        (phaseStep r0 k s).2.1.y ≤ (phaseStep r0 k s).2.1.x ∧
        (phaseStep r0 k s).2.1.x ≤ (phaseStep r0 k s).2.1.y + 1 ∧
        (phaseStep r0 k s).2.1.alpha ≤ 16 * ((phaseStep r0 k s).2.1.x % 16) ∧
        ((phaseStep r0 k s).2.1.x / 16 = (phaseStep r0 k s).2.1.y / 16 →
          (phaseStep r0 k s).2.1.x % 16 * ((phaseStep r0 k s).2.1.y % 16 + 2) ≤
            2 * (phaseStep r0 k s).2.1.alpha)) := by
  intro k
  induction k with
  | zero =>
    intro s hinv
    obtain ⟨hk, hA1, hal, hxy, hskip, hpos, hcell⟩ := hinv
    refine ⟨fun v p hv => absurd hv (List.not_mem_nil _), fun _ => ?_,
      fun h => Bool.noConfusion h⟩
    simp only [phaseStep]
    refine ⟨by omega, ?_, hpos (by omega), by omega, hxy⟩
    intro hs
    have h2 := hskip hs
    omega
  | succ k ih =>
    intro s hinv
    obtain ⟨hk, hA1, hal, hxy, hskip, hpos, hcell⟩ := hinv
    by_cases hbr : s.y ≤ s.x
    · -- break: the state is frozen with `skip := false`
      simp only [phaseStep, if_pos hbr]
      refine ⟨fun v p hv => absurd hv (List.not_mem_nil _), fun h => Bool.noConfusion h,
        fun _ => ?_⟩
      have halx : s.alpha ≤ 16 * (s.x % 16) := by omega
      exact ⟨hbr, hxy, halx, hcell⟩
    · push_neg at hbr
      -- one genuine step: the accumulator grows by `y % 16 + 1` without wrap
      have ha240 : s.alpha ≤ 240 := by omega
      have hmod : (s.alpha + (s.y % 16 + 1)) % 65536 = s.alpha + (s.y % 16 + 1) :=
        Nat.mod_eq_of_lt (by omega)
      have hq : s.x % 16 = 15 - k := by omega
      have halign' : (s.x + 1) % 16 = (16 - k) % 16 := by omega
      have hA1' : s.alpha + (s.y % 16 + 1) ≤ 16 * (16 - k) := by omega
      have hone : 1 ≤ s.alpha + (s.y % 16 + 1) := by omega
      simp only [phaseStep, if_neg (by omega : ¬ s.y ≤ s.x), hmod]
      by_cases hp : s.p < 0
      · -- branch A: x advances, y fixed
        rw [if_pos hp]
        apply ih
        have hcell' : (s.x + 1) / 16 = s.y / 16 →
            (s.x + 1) % 16 * (s.y % 16 + 2) ≤ 2 * (s.alpha + (s.y % 16 + 1)) := by
          intro hc
          by_cases hx15 : s.x % 16 = 15
          · have h0 : (s.x + 1) % 16 = 0 := by omega
            rw [h0]
            omega
          · have hx1 : (s.x + 1) % 16 = s.x % 16 + 1 := by omega
            have hsame : s.x / 16 = (s.x + 1) / 16 := by omega
            have hold := hcell (by omega)
            rw [hx1]
            calc (s.x % 16 + 1) * (s.y % 16 + 2)
                = s.x % 16 * (s.y % 16 + 2) + (s.y % 16 + 2) := by ring
              _ ≤ 2 * s.alpha + (s.y % 16 + 2) := Nat.add_le_add_right hold _
              _ ≤ 2 * (s.alpha + (s.y % 16 + 1)) := by omega
        have hxy' : s.x + 1 ≤ s.y + 1 := by omega
        exact ⟨by omega, hA1', halign', hxy', fun h => Bool.noConfusion h,
          fun _ => Or.inr hone, hcell'⟩
      · rw [if_neg hp]
        by_cases hy0 : s.y % 16 = 0
        · -- branch B with a draw: emit the column coverage, reset, y descends
          rw [if_pos hy0]
          have hbase : (s.x + 1) % 16 * 16 ≤ 16 * (16 - k) := by omega
          have hcell' : (s.x + 1) / 16 = (s.y - 1) / 16 →
              (s.x + 1) % 16 * ((s.y - 1) % 16 + 2) ≤ 2 * ((s.x + 1) % 16 * 16) := by
            intro hc
            have h32 : (s.y - 1) % 16 + 2 ≤ 32 := by omega
            calc (s.x + 1) % 16 * ((s.y - 1) % 16 + 2) ≤ (s.x + 1) % 16 * 32 :=
                  Nat.mul_le_mul_left _ h32
              _ = 2 * ((s.x + 1) % 16 * 16) := by ring
          have hxy' : s.x + 1 ≤ s.y - 1 + 1 := by omega
          have hrec := ih ⟨s.x + 1, s.y - 1, s.p - (2 * (s.y - (s.x + 1)) + 2 : ℕ),
            (s.x + 1) % 16 * 16, true⟩
            ⟨by omega, hbase, halign', hxy',
              fun _ => Nat.mul_comm ((s.x + 1) % 16) 16, fun _ => Or.inl rfl, hcell'⟩
          refine ⟨?_, hrec.2.1, hrec.2.2⟩
          intro v p hv
          rcases List.mem_cons.mp hv with h | h
          · cases h
            exact ⟨hone, by omega⟩
          · rcases List.mem_cons.mp h with h' | h'
            · cases h'
              exact ⟨hone, by omega⟩
            · exact hrec.1 v p h'
        · -- branch B without a draw: plain diagonal step
          rw [if_neg hy0]
          apply ih
          have hcell' : (s.x + 1) / 16 = (s.y - 1) / 16 →
              (s.x + 1) % 16 * ((s.y - 1) % 16 + 2) ≤
                2 * (s.alpha + (s.y % 16 + 1)) := by
            intro hc
            by_cases hx15 : s.x % 16 = 15
            · have h0 : (s.x + 1) % 16 = 0 := by omega
              rw [h0]
              omega
            · have hx1 : (s.x + 1) % 16 = s.x % 16 + 1 := by omega
              have hy1 : (s.y - 1) % 16 = s.y % 16 - 1 := by omega
              have hsame : s.x / 16 = (s.x + 1) / 16 := by omega
              have hysame : (s.y - 1) / 16 = s.y / 16 := by omega
              have hold := hcell (by omega)
              have hb1 : s.y % 16 - 1 + 2 = s.y % 16 + 1 := by omega
              rw [hx1, hy1, hb1]
              nlinarith [hold]
          have hxy' : s.x + 1 ≤ s.y - 1 + 1 := by omega
          exact ⟨by omega, hA1', halign', hxy', fun h => Bool.noConfusion h,
            fun _ => Or.inr hone, hcell'⟩

/-- Pure state evolution of a phase: without a break `x` advances by exactly
`k`; `y` never grows; a break freezes `x` strictly inside the phase. -/
theorem phaseStep_xy (r0 : ℕ) :
    ∀ (k : ℕ) (s : WalkSt),
      ((phaseStep r0 k s).2.2 = false →
        (phaseStep r0 k s).2.1.x = s.x + k ∧ (phaseStep r0 k s).2.1.y ≤ s.y) ∧
      ((phaseStep r0 k s).2.2 = true →
        (phaseStep r0 k s).2.1.y ≤ s.y ∧ s.x ≤ (phaseStep r0 k s).2.1.x ∧
        (phaseStep r0 k s).2.1.x + 1 ≤ s.x + k) := by
  intro k
  induction k with
  | zero =>
    intro s
    exact ⟨fun _ => ⟨rfl, le_refl _⟩, fun h => Bool.noConfusion h⟩
  | succ k ih =>
    intro s
    by_cases hbr : s.y ≤ s.x
    · simp only [phaseStep, if_pos hbr]
      exact ⟨fun h => Bool.noConfusion h, fun _ => ⟨le_refl _, le_refl _, by omega⟩⟩
    · simp only [phaseStep, if_neg hbr]
      by_cases hp : s.p < 0
      · rw [if_pos hp]
        obtain ⟨h1, h2⟩ := ih ⟨s.x + 1, s.y, s.p + (2 * (s.x + 1) + 2 : ℕ),
          (s.alpha + (s.y % 16 + 1)) % 65536, false⟩
        dsimp only at h1 h2
        exact ⟨fun hb => ⟨by rw [(h1 hb).1]; ring, (h1 hb).2⟩,
          fun hb => ⟨(h2 hb).1, by have := (h2 hb).2.1; omega,
            by have := (h2 hb).2.2; omega⟩⟩
      · rw [if_neg hp]
        by_cases hy0 : s.y % 16 = 0
        · rw [if_pos hy0]
          obtain ⟨h1, h2⟩ := ih ⟨s.x + 1, s.y - 1, s.p - (2 * (s.y - (s.x + 1)) + 2 : ℕ),
            (s.x + 1) % 16 * 16, true⟩
          dsimp only at h1 h2 ⊢
          exact ⟨fun hb => ⟨by rw [(h1 hb).1]; ring, by have := (h1 hb).2; omega⟩,
            fun hb => ⟨by have := (h2 hb).1; omega, by have := (h2 hb).2.1; omega,
              by have := (h2 hb).2.2; omega⟩⟩
        · rw [if_neg hy0]
          obtain ⟨h1, h2⟩ := ih ⟨s.x + 1, s.y - 1, s.p - (2 * (s.y - (s.x + 1)) + 2 : ℕ),
            (s.alpha + (s.y % 16 + 1)) % 65536, false⟩
          dsimp only at h1 h2
          exact ⟨fun hb => ⟨by rw [(h1 hb).1]; ring, by have := (h1 hb).2; omega⟩,
            fun hb => ⟨by have := (h2 hb).1; omega, by have := (h2 hb).2.1; omega,
              by have := (h2 hb).2.2; omega⟩⟩

/-- The clearing lists contain no `scale` writes. -/
theorem zeroOpsCol_no_scale (r0 c ytop : ℕ) (v : ℕ) (p : ℕ × ℕ) :
    AOp.scale v p ∉ zeroOpsCol r0 c ytop := by
  intro h
  obtain ⟨j, -, hj⟩ := List.mem_map.mp h
  cases hj

theorem zeroOpsRow_no_scale (r0 c ytop : ℕ) (v : ℕ) (p : ℕ × ℕ) :
    AOp.scale v p ∉ zeroOpsRow r0 c ytop := by
  intro h
  obtain ⟨j, -, hj⟩ := List.mem_map.mp h
  cases hj

theorem squareOps_no_scale (r0 yf : ℕ) (v : ℕ) (p : ℕ × ℕ) :
    AOp.scale v p ∉ squareOps r0 yf := by
  intro h
  obtain ⟨i, -, hi⟩ := List.mem_flatMap.mp h
  obtain ⟨j, -, hj⟩ := List.mem_map.mp hi
  cases hj

/-- The corrective tail draw emits a value in `[1, 256]`, given the bounds
that hold at the break. -/
theorem tailOps_scale_bounds (r0 : ℕ) (s : WalkSt)
    (hyx : s.y ≤ s.x) (hxy : s.x ≤ s.y + 1)
    (hJ : s.alpha ≤ 16 * (s.x % 16))
    (hcell : s.x / 16 = s.y / 16 → s.x % 16 * (s.y % 16 + 2) ≤ 2 * s.alpha) :
    ∀ v p, AOp.scale v p ∈ tailOps r0 s → 1 ≤ v ∧ v ≤ 256 := by
  intro v p hv
  unfold tailOps at hv
  by_cases hc : s.x / 16 = s.y / 16
  · rw [if_pos hc] at hv
    have hTl := hcell hc
    rcases List.mem_singleton.mp hv with h
    by_cases hxeq : s.x = s.y
    · rw [if_pos hxeq] at h
      cases h
      have hq : s.x % 16 = s.y % 16 := by omega
      rw [hq] at hJ hTl
      generalize hqy : s.y % 16 = qy at hJ hTl ⊢
      have hqy16 : qy < 16 := by omega
      constructor <;> (interval_cases qy <;> omega)
    · rw [if_neg hxeq] at h
      cases h
      have hq : s.x % 16 = s.y % 16 + 1 := by omega
      rw [hq] at hJ hTl
      generalize hqy : s.y % 16 = qy at hJ hTl ⊢
      have hqy16 : qy < 16 := by omega
      constructor <;> (interval_cases qy <;> omega)
  · rw [if_neg hc] at hv
    cases hv

/-- Loop-level alpha facts: with sufficient fuel, every emitted `scale` value
is in `[1, 256]`, and the final (break) state satisfies the bounds the tail
draw needs. -/
theorem walkLoop_alpha (r0 : ℕ) :
    ∀ (f : ℕ) (s : WalkSt),
      s.x % 16 = 0 → s.x ≤ s.y + 1 →
      (s.skip = true → s.alpha = 0) →
      (s.skip = false → 1 ≤ s.alpha ∧ s.alpha ≤ 256) →
      s.y + 1 < s.x + 16 * f →
      (∀ v p, AOp.scale v p ∈ (walkLoop r0 f s).1 → 1 ≤ v ∧ v ≤ 256) ∧
      ((walkLoop r0 f s).2.y ≤ (walkLoop r0 f s).2.x ∧
       (walkLoop r0 f s).2.x ≤ (walkLoop r0 f s).2.y + 1 ∧
       (walkLoop r0 f s).2.alpha ≤ 16 * ((walkLoop r0 f s).2.x % 16) ∧
       ((walkLoop r0 f s).2.x / 16 = (walkLoop r0 f s).2.y / 16 →
         (walkLoop r0 f s).2.x % 16 * ((walkLoop r0 f s).2.y % 16 + 2) ≤
           2 * (walkLoop r0 f s).2.alpha)) := by
  intro f
  induction f with
  | zero =>
    intro s hx16 hxy _ _ hfuel
    omega
  | succ f ih =>
    intro s hx16 hxy hskip0 hdraw hfuel
    -- the top of the loop: the accumulator is 0 afterwards in either case
    have htop : (topOps r0 s).2.alpha = 0 ∧ (topOps r0 s).2.x = s.x ∧
        (topOps r0 s).2.y = s.y ∧ (topOps r0 s).2.skip = s.skip := by
      unfold topOps
      by_cases hsk : s.skip
      · rw [if_pos hsk]
        exact ⟨hskip0 hsk, rfl, rfl, rfl⟩
      · rw [if_neg hsk]
        exact ⟨rfl, rfl, rfl, rfl⟩
    have hcell0 : (topOps r0 s).2.x / 16 = (topOps r0 s).2.y / 16 →
        (topOps r0 s).2.x % 16 * ((topOps r0 s).2.y % 16 + 2) ≤
          2 * (topOps r0 s).2.alpha := by
      intro _
      have hz : (topOps r0 s).2.x % 16 = 0 := by rw [htop.2.1]; exact hx16
      rw [hz, Nat.zero_mul]
      exact Nat.zero_le _
    have hPhInv : PhaseInv 16 (topOps r0 s).2 := by
      refine ⟨le_refl 16, ?_, ?_, ?_, ?_, fun h => absurd h (by omega), hcell0⟩
      · rw [htop.1]
      · rw [htop.2.1]; omega
      · rw [htop.2.1, htop.2.2.1]; exact hxy
      · intro _
        rw [htop.1, htop.2.1, hx16]
    have hPh := phaseStep_alpha r0 16 (topOps r0 s).2 hPhInv
    have hXY := phaseStep_xy r0 16 (topOps r0 s).2
    -- the draws emitted at the top are in range
    have htops : ∀ v p, AOp.scale v p ∈ (topOps r0 s).1 → 1 ≤ v ∧ v ≤ 256 := by
      unfold topOps
      by_cases hsk : s.skip
      · rw [if_pos hsk]
        intro v p hv
        dsimp only at hv
        rcases List.mem_append.mp hv with h | h
        · exact absurd h (zeroOpsCol_no_scale _ _ _ _ _)
        · exact absurd h (zeroOpsRow_no_scale _ _ _ _ _)
      · rw [if_neg hsk]
        intro v p hv
        dsimp only at hv
        rcases List.mem_append.mp hv with h | h
        · rcases List.mem_append.mp h with h' | h'
          · exact absurd h' (zeroOpsCol_no_scale _ _ _ _ _)
          · exact absurd h' (zeroOpsRow_no_scale _ _ _ _ _)
        · rcases List.mem_cons.mp h with h' | h'
          · cases h'
            exact hdraw (by simpa using hsk)
          · rcases List.mem_cons.mp h' with h'' | h''
            · cases h''
              exact hdraw (by simpa using hsk)
            · cases h''
    show (∀ v p, AOp.scale v p ∈ (walkLoop r0 (f + 1) s).1 → 1 ≤ v ∧ v ≤ 256) ∧ _
    rw [walkLoop]
    simp only [loopIter]
    by_cases hb : (phaseStep r0 16 (topOps r0 s).2).2.2
    · rw [if_pos hb]
      have hbreak := hPh.2.2 hb
      refine ⟨?_, hbreak.1, hbreak.2.1, hbreak.2.2.1, hbreak.2.2.2⟩
      intro v p hv
      rcases List.mem_append.mp hv with h | h
      · exact htops v p h
      · exact hPh.1 v p h
    · rw [if_neg hb]
      have hb' : (phaseStep r0 16 (topOps r0 s).2).2.2 = false := by
        simpa using hb
      have hdone := hPh.2.1 hb'
      have hxy' := hXY.1 hb'
      have hrec := ih (phaseStep r0 16 (topOps r0 s).2).2.1
        hdone.2.2.2.1 hdone.2.2.2.2
        hdone.2.1 (fun hf => ⟨(hdone.2.2.1.resolve_left (by rw [hf]; simp)), hdone.1⟩)
        (by
          have h1 := hxy'.1
          have h2 := hxy'.2
          rw [htop.2.1] at h1
          rw [htop.2.2.1] at h2
          omega)
      refine ⟨?_, hrec.2⟩
      intro v p hv
      rcases List.mem_append.mp hv with h | h
      · rcases List.mem_append.mp h with h' | h'
        · exact htops v p h'
        · exact hPh.1 v p h'
      · exact hrec.1 v p h

/-- Every coverage value `border_radius` emits lies in `[1, 256]` — the
property the source's `debug_assert!((1..=256).contains(&alpha))` asserts. -/
theorem borderRadiusOps_scale_bounds (r0 : ℕ) (v : ℕ) (p : ℕ × ℕ)
    (hv : AOp.scale v p ∈ borderRadiusOps r0) : 1 ≤ v ∧ v ≤ 256 := by
  unfold borderRadiusOps at hv
  by_cases hr : r0 = 0
  · rw [if_pos hr] at hv
    cases hv
  · rw [if_neg hr] at hv
    dsimp only at hv
    have hwalk := walkLoop_alpha r0 (r0 + 2)
      ⟨0, 16 * r0 - 1, 2 - (16 * r0 : ℤ), 0, true⟩
      rfl (by dsimp only; omega) (fun _ => rfl) (fun h => Bool.noConfusion h)
      (by dsimp only; omega)
    rcases List.mem_append.mp hv with h | h
    · rcases List.mem_append.mp h with h' | h'
      · exact hwalk.1 v p h'
      · obtain ⟨hyx, hxy, hJ, hcell⟩ := hwalk.2
        exact tailOps_scale_bounds r0 _ hyx hxy hJ hcell v p h'
    · exact absurd h (squareOps_no_scale _ _ _ _)

/-- Applying writes whose scale values are at most 256 to a `u8`-valued
buffer never increases any pixel's alpha, and keeps the buffer `u8`-valued. -/
theorem foldl_applyAOp_alpha_le (coord : ℕ × ℕ → ℕ × ℕ) :
    ∀ (ops : List AOp) (img : Image),
      (∀ v p, AOp.scale v p ∈ ops → v ≤ 256) →
      (∀ x y, (img.pix x y).a ≤ 255) →
      (∀ x y, ((ops.foldl (applyAOp coord) img).pix x y).a ≤ (img.pix x y).a) ∧
      (∀ x y, ((ops.foldl (applyAOp coord) img).pix x y).a ≤ 255) := by
  intro ops
  induction ops with
  | nil => intro img _ hin; exact ⟨fun x y => le_refl _, hin⟩
  | cons op rest ih =>
    intro img hops hin
    have hstep : (∀ x y, ((applyAOp coord img op).pix x y).a ≤ (img.pix x y).a) ∧
        (∀ x y, ((applyAOp coord img op).pix x y).a ≤ 255) := by
      have key : ∀ x y, ((applyAOp coord img op).pix x y).a ≤ (img.pix x y).a := by
        intro x y
        cases op with
        | zero p =>
          simp only [applyAOp, setAlphaAt]
          split
          · exact Nat.zero_le _
          · exact le_refl _
        | scale v p =>
          simp only [applyAOp, setAlphaAt]
          split
          · rename_i hxy
            have : (x, y) = coord p := hxy
            rw [show (coord p).1 = x by rw [← this], show (coord p).2 = y by rw [← this]]
            exact scaleAlpha_le (hops v p (List.mem_cons_self _ _)) (hin x y)
          · exact le_refl _
      exact ⟨key, fun x y => le_trans (key x y) (hin x y)⟩
    rw [List.foldl_cons]
    obtain ⟨ihle, ih255⟩ := ih (applyAOp coord img op)
      (fun v p hv => hops v p (List.mem_cons_of_mem _ hv)) hstep.2
    exact ⟨fun x y => le_trans (ihle x y) (hstep.1 x y), ih255⟩

/-- `border_radius` never increases alpha on a `u8`-valued buffer. -/
theorem border_radius_alpha_le (img : Image) (r0 : ℕ) (coord : ℕ × ℕ → ℕ × ℕ)
    (hin : ∀ x y, (img.pix x y).a ≤ 255) :
    (∀ x y, ((border_radius img r0 coord).pix x y).a ≤ (img.pix x y).a) ∧
    (∀ x y, ((border_radius img r0 coord).pix x y).a ≤ 255) :=
  foldl_applyAOp_alpha_le coord (borderRadiusOps r0) img
    (fun v p hv => (borderRadiusOps_scale_bounds r0 v p hv).2) hin

/-- C7: the blend `(a * old + 128) / 256` never exceeds `old` for emitted
values `a ≤ 256` and `u8` alphas; every value the rasterizer emits is in
`[1, 256]`; consequently `round_corners` never increases any pixel's alpha. -/
theorem c7_alpha_never_increases :
    (∀ a old : ℕ, 1 ≤ a → a ≤ 256 → old ≤ 255 → scaleAlpha a old ≤ old) ∧
    (∀ r0 v p, AOp.scale v p ∈ borderRadiusOps r0 → 1 ≤ v ∧ v ≤ 256) ∧
    (∀ (img : Image) (pct : ℚ) (out : Image),
      (∀ x y, (img.pix x y).a ≤ 255) → round_corners img pct = some out →
      ∀ x y, (out.pix x y).a ≤ (img.pix x y).a) := by
  refine ⟨fun a old _ ha hold => scaleAlpha_le ha hold, borderRadiusOps_scale_bounds, ?_⟩
  intro img pct out hin h x y
  unfold round_corners at h
  dsimp only at h
  split at h
  · cases h
    exact le_refl _
  · unfold roundIm at h
    dsimp only at h
    split at h
    · cases h
      obtain ⟨h1le, h1b⟩ := border_radius_alpha_le img _ _ hin
      obtain ⟨h2le, h2b⟩ := border_radius_alpha_le _ _ _ h1b
      obtain ⟨h3le, h3b⟩ := border_radius_alpha_le _ _ _ h2b
      obtain ⟨h4le, h4b⟩ := border_radius_alpha_le _ _ _ h3b
      exact le_trans (h4le x y) (le_trans (h3le x y) (le_trans (h2le x y) (h1le x y)))
    · cases h

theorem c7_alpha_never_increases_witness :
    ((1 : ℕ) ≤ 256 ∧ (256 : ℕ) ≤ 256 ∧ (100 : ℕ) ≤ 255 ∧ scaleAlpha 256 100 ≤ 100) ∧
    (∃ out, round_corners imgAsym 50 = some out ∧
      (∀ x y, (imgAsym.pix x y).a ≤ 255) ∧ (out.pix 0 0).a ≤ (imgAsym.pix 0 0).a) := by
  have hin : ∀ x y, (imgAsym.pix x y).a ≤ 255 := by
    intro x y
    unfold imgAsym
    dsimp only
    split <;> norm_num
  refine ⟨⟨by norm_num, le_refl _, by norm_num,
    c7_alpha_never_increases.1 256 100 (by norm_num) (le_refl _) (by norm_num)⟩,
    _, round_corners_asym_50.trans rfl, hin, ?_⟩
  exact c7_alpha_never_increases.2.2 imgAsym 50 _ hin (round_corners_asym_50.trans rfl) 0 0

/-- Geometric loop invariant of the rasterizer walk for subpixel radius
`16 * r0`: the exact value of the decision variable `p`, the in-circle bound,
the lower diagonal bound `x + 5y ≥ 4·(16 r0) − 5`, and coordinate bounds. -/
def WalkInv (r0 : ℕ) (s : WalkSt) : Prop :=
  s.p = (s.x : ℤ) * s.x + (s.y : ℤ) * s.y + 3 * s.x + 5 * s.y
      - 256 * ((r0 : ℤ) * r0) - 64 * r0 + 6 ∧
  s.x * s.x + s.y * s.y ≤ 256 * (r0 * r0) ∧
  64 * r0 ≤ s.x + 5 * s.y + 5 ∧
  s.x ≤ 16 * r0 - 1 ∧ s.y ≤ 16 * r0 - 1

theorem walkInv_congr (r0 : ℕ) (s t : WalkSt) (hx : t.x = s.x) (hy : t.y = s.y)
    (hp : t.p = s.p) (h : WalkInv r0 s) : WalkInv r0 t := by
  unfold WalkInv at h ⊢
  rw [hx, hy, hp]
  exact h

theorem walkInv_init (r0 : ℕ) (hr : 1 ≤ r0) :
    WalkInv r0 ⟨0, 16 * r0 - 1, 2 - (16 * r0 : ℤ), 0, true⟩ := by
  unfold WalkInv
  dsimp only
  have hc : ((16 * r0 - 1 : ℕ) : ℤ) = 16 * (r0 : ℤ) - 1 := by omega
  refine ⟨by rw [hc]; push_cast; ring, ?_, by omega, by omega, by omega⟩
  calc 0 * 0 + (16 * r0 - 1) * (16 * r0 - 1)
      ≤ (16 * r0) * (16 * r0) := by
        simpa using Nat.mul_le_mul (Nat.sub_le (16 * r0) 1) (Nat.sub_le (16 * r0) 1)
    _ = 256 * (r0 * r0) := by ring

/-- A step with `p < 0` (x advances, y stays) preserves the walk invariant;
the in-circle bound closes using the diagonal bound. -/
theorem stepA_inv (r0 x y : ℕ) (p : ℤ) (A : ℕ) (SK : Bool) (hxy : x < y)
    (hp : p = (x : ℤ) * x + (y : ℤ) * y + 3 * x + 5 * y
      - 256 * ((r0 : ℤ) * r0) - 64 * r0 + 6)
    (hpneg : p < 0)
    (hI4 : 64 * r0 ≤ x + 5 * y + 5)
    (hyb : y ≤ 16 * r0 - 1) :
    WalkInv r0 ⟨x + 1, y, p + (2 * (x + 1) + 2 : ℕ), A, SK⟩ := by
  have hz : (x : ℤ) * x + (y : ℤ) * y + 3 * x + 5 * y
      < 256 * ((r0 : ℤ) * r0) + 64 * r0 - 6 := by
    rw [hp] at hpneg
    linarith
  have hI4z : (64 * (r0 : ℤ)) ≤ (x : ℤ) + 5 * y + 5 := by exact_mod_cast hI4
  unfold WalkInv
  dsimp only
  refine ⟨by rw [hp]; push_cast; ring, ?_, by omega, by omega, by omega⟩
  zify
  nlinarith [hz, hI4z]

/-- A step with `p ≥ 0` (x advances, y descends) preserves the walk
invariant.  The diagonal bound closes by a quadratic argument: assuming
`x + 5y ≤ 4·(16 r0) − 2`, the point would lie strictly inside the circle,
contradicting `p ≥ 0`. -/
theorem stepB_inv (r0 x y : ℕ) (p : ℤ) (A : ℕ) (SK : Bool) (hr : 1 ≤ r0)
    (hxy : x < y)
    (hp : p = (x : ℤ) * x + (y : ℤ) * y + 3 * x + 5 * y
      - 256 * ((r0 : ℤ) * r0) - 64 * r0 + 6)
    (hpnn : 0 ≤ p)
    (hI3 : x * x + y * y ≤ 256 * (r0 * r0))
    (hI4 : 64 * r0 ≤ x + 5 * y + 5)
    (hyb : y ≤ 16 * r0 - 1) :
    WalkInv r0 ⟨x + 1, y - 1, p - (2 * (y - (x + 1)) + 2 : ℕ), A, SK⟩ := by
  have hpz : 256 * ((r0 : ℤ) * r0) + 64 * r0
      ≤ (x : ℤ) * x + (y : ℤ) * y + 3 * x + 5 * y + 6 := by
    rw [hp] at hpnn
    linarith
  have hI4' : 64 * r0 ≤ x + 5 * y + 1 := by
    by_contra hcon
    push_neg at hcon
    have hX : (0 : ℤ) ≤ (x : ℤ) := Int.natCast_nonneg x
    have hYnn : (0 : ℤ) ≤ (y : ℤ) := Int.natCast_nonneg y
    have hA : (0 : ℤ) ≤ 64 * (r0 : ℤ) - 2 - x - 5 * y := by
      have h1 : x + 5 * y + 2 ≤ 64 * r0 := by omega
      have h2 : ((x + 5 * y + 2 : ℕ) : ℤ) ≤ ((64 * r0 : ℕ) : ℤ) := Int.ofNat_le.mpr h1
      push_cast at h2
      linarith
    have hB : (0 : ℤ) ≤ 64 * (r0 : ℤ) - 2 - x + 5 * y := by linarith
    have h67 : (0 : ℤ) ≤ 64 * (r0 : ℤ) - 7 - 6 * x := by
      have h1 : 6 * x + 7 ≤ 64 * r0 := by omega
      have h2 : ((6 * x + 7 : ℕ) : ℤ) ≤ ((64 * r0 : ℕ) : ℤ) := Int.ofNat_le.mpr h1
      push_cast at h2
      linarith
    have h56 : (0 : ℤ) ≤ 896 * (r0 : ℤ) + 142 := by positivity
    have hRz : (16 : ℤ) ≤ 16 * (r0 : ℤ) := by
      have : (1 : ℤ) ≤ (r0 : ℤ) := by exact_mod_cast hr
      linarith
    have hr16 : (0 : ℤ) ≤ (16 * (r0 : ℤ) - 16) * (16 * r0) := by
      apply mul_nonneg
      · linarith
      · positivity
    nlinarith [mul_nonneg hA hB, mul_nonneg hX h67, mul_nonneg h56 h67, hr16, hpz]
  unfold WalkInv
  dsimp only
  have hy1 : 1 ≤ y := by omega
  refine ⟨?_, ?_, by omega, by omega, by omega⟩
  · rw [hp]
    have hc1 : ((y - 1 : ℕ) : ℤ) = (y : ℤ) - 1 := by omega
    have hc2 : ((2 * (y - (x + 1)) + 2 : ℕ) : ℤ) = 2 * ((y : ℤ) - x - 1) + 2 := by
      omega
    rw [hc1, hc2]
    push_cast
    ring
  · zify [hy1]
    have hI3z : (x : ℤ) * x + (y : ℤ) * y ≤ 256 * ((r0 : ℤ) * r0) := by
      exact_mod_cast hI3
    have hxyz : (x : ℤ) + 1 ≤ (y : ℤ) := by exact_mod_cast hxy
    nlinarith [hI3z, hxyz]

/-- The inner loop preserves the walk invariant. -/
theorem phaseStep_inv (r0 : ℕ) (hr : 1 ≤ r0) :
    ∀ (k : ℕ) (s : WalkSt), WalkInv r0 s → WalkInv r0 (phaseStep r0 k s).2.1 := by
  intro k
  induction k with
  | zero => intro s h; exact h
  | succ k ih =>
    intro s h
    obtain ⟨hp, hI3, hI4, hxb, hyb⟩ := h
    by_cases hbr : s.y ≤ s.x
    · simp only [phaseStep, if_pos hbr]
      exact ⟨hp, hI3, hI4, hxb, hyb⟩
    · push_neg at hbr
      simp only [phaseStep, if_neg (by omega : ¬ s.y ≤ s.x)]
      by_cases hpneg : s.p < 0
      · rw [if_pos hpneg]
        exact ih _ (stepA_inv r0 s.x s.y s.p _ _ hbr hp hpneg hI4 hyb)
      · push_neg at hpneg
        rw [if_neg (not_lt.mpr hpneg)]
        by_cases hy0 : s.y % 16 = 0
        · rw [if_pos hy0]
          exact ih _ (stepB_inv r0 s.x s.y s.p _ _ hr hbr hp hpneg hI3 hI4 hyb)
        · rw [if_neg hy0]
          exact ih _ (stepB_inv r0 s.x s.y s.p _ _ hr hbr hp hpneg hI3 hI4 hyb)

/-- The inner loop keeps `x ≤ y + 1`. -/
theorem phaseStep_xle (r0 : ℕ) :
    ∀ (k : ℕ) (s : WalkSt), s.x ≤ s.y + 1 →
      (phaseStep r0 k s).2.1.x ≤ (phaseStep r0 k s).2.1.y + 1 := by
  intro k
  induction k with
  | zero => intro s h; exact h
  | succ k ih =>
    intro s h
    by_cases hbr : s.y ≤ s.x
    · simp only [phaseStep, if_pos hbr]
      exact h
    · push_neg at hbr
      simp only [phaseStep, if_neg (by omega : ¬ s.y ≤ s.x)]
      by_cases hpneg : s.p < 0
      · rw [if_pos hpneg]
        exact ih _ (by dsimp only; omega)
      · rw [if_neg hpneg]
        by_cases hy0 : s.y % 16 = 0
        · rw [if_pos hy0]
          exact ih _ (by dsimp only; omega)
        · rw [if_neg hy0]
          exact ih _ (by dsimp only; omega)

/-- Every position the inner loop draws at lies in the box `[1, r0]²`. -/
theorem phaseStep_pos (r0 : ℕ) :
    ∀ (k : ℕ) (s : WalkSt), s.y ≤ 16 * r0 - 1 →
      ∀ op ∈ (phaseStep r0 k s).1, inBox r0 op.pos := by
  intro k
  induction k with
  | zero =>
    intro s _ op hop
    simp only [phaseStep] at hop
    exact absurd hop (List.not_mem_nil _)
  | succ k ih =>
    intro s hyb op hop
    by_cases hbr : s.y ≤ s.x
    · simp only [phaseStep, if_pos hbr] at hop
      exact absurd hop (List.not_mem_nil _)
    · push_neg at hbr
      simp only [phaseStep, if_neg (by omega : ¬ s.y ≤ s.x)] at hop
      by_cases hpneg : s.p < 0
      · rw [if_pos hpneg] at hop
        exact ih _ (by dsimp only; omega) op hop
      · rw [if_neg hpneg] at hop
        by_cases hy0 : s.y % 16 = 0
        · rw [if_pos hy0] at hop
          dsimp only at hop
          rcases List.mem_cons.mp hop with h | h
          · subst h
            simp only [AOp.pos, inBox]
            omega
          · rcases List.mem_cons.mp h with h' | h'
            · subst h'
              simp only [AOp.pos, inBox]
              omega
            · exact ih _ (by dsimp only; omega) op h'
        · rw [if_neg hy0] at hop
          exact ih _ (by dsimp only; omega) op hop

/-- The outer-loop top only changes the accumulator, never the coordinates
or the decision variable. -/
theorem topOps_state (r0 : ℕ) (s : WalkSt) :
    (topOps r0 s).2.x = s.x ∧ (topOps r0 s).2.y = s.y ∧
    (topOps r0 s).2.p = s.p := by
  unfold topOps
  by_cases hsk : s.skip
  · rw [if_pos hsk]
    exact ⟨rfl, rfl, rfl⟩
  · rw [if_neg hsk]
    exact ⟨rfl, rfl, rfl⟩

/-- Every position the outer-loop top writes lies in the box `[1, r0]²`. -/
theorem topOps_pos (r0 : ℕ) (s : WalkSt) (hr : 1 ≤ r0)
    (hxb : s.x ≤ 16 * r0 - 1) (hyb : s.y ≤ 16 * r0 - 1) :
    ∀ op ∈ (topOps r0 s).1, inBox r0 op.pos := by
  have hzs : ∀ o ∈ zeroOpsCol r0 (s.x / 16) s.y ++ zeroOpsRow r0 (s.x / 16) s.y,
      inBox r0 o.pos := by
    intro o ho
    rcases List.mem_append.mp ho with h | h
    · obtain ⟨j, hj, rfl⟩ := List.mem_map.mp h
      have hj' := List.mem_range'_1.mp hj
      simp only [AOp.pos, inBox]
      omega
    · obtain ⟨i, hi, rfl⟩ := List.mem_map.mp h
      have hi' := List.mem_range'_1.mp hi
      simp only [AOp.pos, inBox]
      omega
  intro op hop
  unfold topOps at hop
  by_cases hsk : s.skip
  · rw [if_pos hsk] at hop
    dsimp only at hop
    exact hzs op hop
  · rw [if_neg hsk] at hop
    dsimp only at hop
    rcases List.mem_append.mp hop with h | h
    · exact hzs op h
    · rcases List.mem_cons.mp h with h' | h'
      · subst h'
        simp only [AOp.pos, inBox]
        omega
      · rcases List.mem_cons.mp h' with h'' | h''
        · subst h''
          simp only [AOp.pos, inBox]
          omega
        · exact absurd h'' (List.not_mem_nil _)

/-- The outer loop preserves the walk invariant and `x ≤ y + 1`. -/
theorem walkLoop_inv (r0 : ℕ) (hr : 1 ≤ r0) :
    ∀ (f : ℕ) (s : WalkSt), WalkInv r0 s → s.x ≤ s.y + 1 →
      WalkInv r0 (walkLoop r0 f s).2 ∧
      (walkLoop r0 f s).2.x ≤ (walkLoop r0 f s).2.y + 1 := by
  intro f
  induction f with
  | zero => intro s h hx; exact ⟨h, hx⟩
  | succ f ih =>
    intro s h hx
    have htop := topOps_state r0 s
    have hinv' : WalkInv r0 (topOps r0 s).2 :=
      walkInv_congr r0 s _ htop.1 htop.2.1 htop.2.2 h
    have hx' : (topOps r0 s).2.x ≤ (topOps r0 s).2.y + 1 := by
      rw [htop.1, htop.2.1]
      exact hx
    have hinv2 := phaseStep_inv r0 hr 16 _ hinv'
    have hx2 := phaseStep_xle r0 16 _ hx'
    rw [walkLoop]
    simp only [loopIter]
    by_cases hb : (phaseStep r0 16 (topOps r0 s).2).2.2
    · rw [if_pos hb]
      exact ⟨hinv2, hx2⟩
    · rw [if_neg hb]
      exact ih _ hinv2 hx2

/-- Every position the outer loop writes lies in the box `[1, r0]²`. -/
theorem walkLoop_pos (r0 : ℕ) (hr : 1 ≤ r0) :
    ∀ (f : ℕ) (s : WalkSt), WalkInv r0 s → s.x ≤ s.y + 1 →
      ∀ op ∈ (walkLoop r0 f s).1, inBox r0 op.pos := by
  intro f
  induction f with
  | zero =>
    intro s _ _ op hop
    exact absurd hop (List.not_mem_nil _)
  | succ f ih =>
    intro s h hx op hop
    have htop := topOps_state r0 s
    have hinv' : WalkInv r0 (topOps r0 s).2 :=
      walkInv_congr r0 s _ htop.1 htop.2.1 htop.2.2 h
    have hx' : (topOps r0 s).2.x ≤ (topOps r0 s).2.y + 1 := by
      rw [htop.1, htop.2.1]
      exact hx
    have hxb := h.2.2.2.1
    have hyb := h.2.2.2.2
    rw [walkLoop] at hop
    simp only [loopIter] at hop
    by_cases hb : (phaseStep r0 16 (topOps r0 s).2).2.2
    · rw [if_pos hb] at hop
      dsimp only at hop
      rcases List.mem_append.mp hop with h' | h'
      · exact topOps_pos r0 s hr hxb hyb op h'
      · exact phaseStep_pos r0 16 _ (by rw [htop.2.1]; exact hyb) op h'
    · rw [if_neg hb] at hop
      dsimp only at hop
      rcases List.mem_append.mp hop with h' | h'
      · rcases List.mem_append.mp h' with h'' | h''
        · exact topOps_pos r0 s hr hxb hyb op h''
        · exact phaseStep_pos r0 16 _ (by rw [htop.2.1]; exact hyb) op h''
      · exact ih _ (phaseStep_inv r0 hr 16 _ hinv') (phaseStep_xle r0 16 _ hx') op h'

/-- Every position `border_radius` writes lies in the box `[1, r0]²`. -/
theorem borderRadiusOps_pos_inBox (r0 : ℕ) :
    ∀ op ∈ borderRadiusOps r0, inBox r0 op.pos := by
  intro op hop
  unfold borderRadiusOps at hop
  by_cases hr : r0 = 0
  · rw [if_pos hr] at hop
    exact absurd hop (List.not_mem_nil _)
  · rw [if_neg hr] at hop
    dsimp only at hop
    have hr1 : 1 ≤ r0 := by omega
    have hinit := walkInv_init r0 hr1
    have hfin := walkLoop_inv r0 hr1 (r0 + 2) _ hinit (by dsimp only; omega)
    rcases List.mem_append.mp hop with h | h
    · rcases List.mem_append.mp h with h' | h'
      · exact walkLoop_pos r0 hr1 (r0 + 2) _ hinit (by dsimp only; omega) op h'
      · unfold tailOps at h'
        by_cases hc : (walkLoop r0 (r0 + 2)
            ⟨0, 16 * r0 - 1, 2 - (16 * r0 : ℤ), 0, true⟩).2.x / 16 =
            (walkLoop r0 (r0 + 2)
              ⟨0, 16 * r0 - 1, 2 - (16 * r0 : ℤ), 0, true⟩).2.y / 16
        · rw [if_pos hc] at h'
          rcases List.mem_singleton.mp h' with rfl
          have hxb := hfin.1.2.2.2.1
          have hyb := hfin.1.2.2.2.2
          simp only [AOp.pos, inBox]
          omega
        · rw [if_neg hc] at h'
          exact absurd h' (List.not_mem_nil _)
    · unfold squareOps at h
      obtain ⟨i, hi, hmem⟩ := List.mem_flatMap.mp h
      obtain ⟨j, hj, rfl⟩ := List.mem_map.mp hmem
      have hi' := List.mem_range'_1.mp hi
      have hj' := List.mem_range'_1.mp hj
      simp only [AOp.pos, inBox]
      omega

/-- Coverage: while the walk's column index is at most `min i j`, a cell
`(i, j)` strictly outside the circle receives a clearing write from the top
of the outer-loop iteration whose column index equals `min i j` (the
in-circle bound puts the walk's `y` below `16 · max i j` there), provided
the walk gets that far; the conclusion is conditional on the final column
index having passed `min i j`. -/
theorem walkLoop_cover (r0 i j : ℕ) (hr : 1 ≤ r0) (hi : i < r0) (hj : j < r0)
    (hout : r0 * r0 < i * i + j * j) :
    ∀ (f : ℕ) (s : WalkSt), WalkInv r0 s → s.x % 16 = 0 → s.x ≤ s.y + 1 →
      s.y + 1 < s.x + 16 * f → s.x / 16 ≤ min i j →
      (min i j ≤ (walkLoop r0 f s).2.x / 16 →
        AOp.zero (r0 - i, r0 - j) ∈ (walkLoop r0 f s).1) := by
  intro f
  induction f with
  | zero =>
    intro s _ _ hxle hfuel _ _
    exact absurd hfuel (by omega)
  | succ f ih =>
    intro s hinv hx16 hxle hfuel hcol
    have htop := topOps_state r0 s
    have hinv' : WalkInv r0 (topOps r0 s).2 :=
      walkInv_congr r0 s _ htop.1 htop.2.1 htop.2.2 hinv
    have hx' : (topOps r0 s).2.x ≤ (topOps r0 s).2.y + 1 := by
      rw [htop.1, htop.2.1]
      exact hxle
    rw [walkLoop]
    simp only [loopIter]
    by_cases hm : s.x / 16 = min i j
    · -- this iteration's top clears the cell
      have hI3 := hinv.2.1
      have hzs : AOp.zero (r0 - i, r0 - j) ∈
          zeroOpsCol r0 (s.x / 16) s.y ++ zeroOpsRow r0 (s.x / 16) s.y := by
        by_cases hij : i ≤ j
        · have hci : s.x / 16 = i := by omega
          have hyj : s.y < 16 * j := by
            by_contra hcon
            push_neg at hcon
            have h1 : 256 * (j * j) ≤ s.y * s.y := by
              calc 256 * (j * j) = (16 * j) * (16 * j) := by ring
                _ ≤ s.y * s.y := Nat.mul_le_mul hcon hcon
            have h2 : s.x * s.x = 256 * (i * i) := by
              rw [show s.x = 16 * i by omega]
              ring
            linarith [hI3, hout]
          refine List.mem_append_left _ ?_
          unfold zeroOpsCol
          refine List.mem_map.mpr ⟨j, List.mem_range'_1.mpr ⟨by omega, by omega⟩, ?_⟩
          rw [hci]
        · have hcj : s.x / 16 = j := by omega
          have hyi : s.y < 16 * i := by
            by_contra hcon
            push_neg at hcon
            have h1 : 256 * (i * i) ≤ s.y * s.y := by
              calc 256 * (i * i) = (16 * i) * (16 * i) := by ring
                _ ≤ s.y * s.y := Nat.mul_le_mul hcon hcon
            have h2 : s.x * s.x = 256 * (j * j) := by
              rw [show s.x = 16 * j by omega]
              ring
            linarith [hI3, hout]
          refine List.mem_append_right _ ?_
          unfold zeroOpsRow
          refine List.mem_map.mpr ⟨i, List.mem_range'_1.mpr ⟨by omega, by omega⟩, ?_⟩
          rw [hcj]
      have hmemtop : AOp.zero (r0 - i, r0 - j) ∈ (topOps r0 s).1 := by
        unfold topOps
        by_cases hsk : s.skip
        · rw [if_pos hsk]
          exact hzs
        · rw [if_neg hsk]
          dsimp only
          exact List.mem_append_left _ hzs
      by_cases hb : (phaseStep r0 16 (topOps r0 s).2).2.2
      · rw [if_pos hb]
        intro _
        exact List.mem_append_left _ hmemtop
      · rw [if_neg hb]
        intro _
        exact List.mem_append_left _ (List.mem_append_left _ hmemtop)
    · have hlt : s.x / 16 < min i j := by omega
      by_cases hb : (phaseStep r0 16 (topOps r0 s).2).2.2
      · rw [if_pos hb]
        intro hcon
        dsimp only at hcon
        have hxy2 := (phaseStep_xy r0 16 (topOps r0 s).2).2 hb
        rw [htop.1] at hxy2
        exact absurd hcon (by omega)
      · rw [if_neg hb]
        intro hcon
        dsimp only at hcon
        have hb' : (phaseStep r0 16 (topOps r0 s).2).2.2 = false := by
          simpa using hb
        have hxeq := (phaseStep_xy r0 16 (topOps r0 s).2).1 hb'
        rw [htop.1] at hxeq
        rw [htop.2.1] at hxeq
        refine List.mem_append_right _ ?_
        refine ih (phaseStep r0 16 (topOps r0 s).2).2.1
          (phaseStep_inv r0 hr 16 _ hinv') (by omega)
          (phaseStep_xle r0 16 _ hx') (by omega) (by omega) hcon

/-- A cell `(i, j)` of the corner box strictly outside the circle receives a
clearing write from `border_radius`: from the top of the outer loop if the
walk's column reaches `min i j`, and from the final square clear otherwise. -/
theorem borderRadiusOps_cover (r0 i j : ℕ) (hi : i < r0) (hj : j < r0)
    (hout : r0 * r0 < i * i + j * j) :
    AOp.zero (r0 - i, r0 - j) ∈ borderRadiusOps r0 := by
  have hr : 1 ≤ r0 := by omega
  unfold borderRadiusOps
  rw [if_neg (by omega : ¬ r0 = 0)]
  dsimp only
  have hinit := walkInv_init r0 hr
  have hwalk := walkLoop_alpha r0 (r0 + 2)
    ⟨0, 16 * r0 - 1, 2 - (16 * r0 : ℤ), 0, true⟩
    rfl (by dsimp only; omega) (fun _ => rfl) (fun h => Bool.noConfusion h)
    (by dsimp only; omega)
  have hcov := walkLoop_cover r0 i j hr hi hj hout (r0 + 2)
    ⟨0, 16 * r0 - 1, 2 - (16 * r0 : ℤ), 0, true⟩
    hinit rfl (by dsimp only; omega) (by dsimp only; omega) (by dsimp only; omega)
  by_cases hm : min i j ≤ (walkLoop r0 (r0 + 2)
      ⟨0, 16 * r0 - 1, 2 - (16 * r0 : ℤ), 0, true⟩).2.x / 16
  · exact List.mem_append_left _ (List.mem_append_left _ (hcov hm))
  · push_neg at hm
    have hyx := hwalk.2.1
    refine List.mem_append_right _ ?_
    unfold squareOps
    refine List.mem_flatMap.mpr
      ⟨i, List.mem_range'_1.mpr ⟨by omega, by omega⟩, ?_⟩
    exact List.mem_map.mpr ⟨j, List.mem_range'_1.mpr ⟨by omega, by omega⟩, rfl⟩

/-- The four corner coordinate closures `round` passes to `border_radius`. -/
def cTL (_img : Image) : ℕ × ℕ → ℕ × ℕ := fun ab => (ab.1 - 1, ab.2 - 1)

def cTR (img : Image) : ℕ × ℕ → ℕ × ℕ := fun ab => (img.w - ab.1, ab.2 - 1)

def cBR (img : Image) : ℕ × ℕ → ℕ × ℕ := fun ab => (img.w - ab.1, img.h - ab.2)

def cBL (img : Image) : ℕ × ℕ → ℕ × ℕ := fun ab => (ab.1 - 1, img.h - ab.2)

/-- The four-pass body of `round` with all radii equal. -/
def roundedEq (img : Image) (r : ℕ) : Image :=
  border_radius (border_radius (border_radius (border_radius img r
    (cTL img)) r (cTR img)) r (cBR img)) r (cBL img)

theorem roundIm_rrrr (img : Image) (r : ℕ) (hw : 2 * r ≤ img.w)
    (hh : 2 * r ≤ img.h) :
    roundIm img (r, r, r, r) = some (roundedEq img r) := by
  unfold roundIm roundedEq cTL cTR cBR cBL
  dsimp only
  rw [if_pos ⟨by omega, by omega, by omega, by omega⟩]

/-- Runs over the same operations with alpha planes that agree on the box
agree, provided all positions lie in the box. -/
theorem runLocal_congr (r0 : ℕ) :
    ∀ (ops : List AOp) (f g : ℕ × ℕ → ℕ),
      (∀ op ∈ ops, inBox r0 op.pos) →
      (∀ q, inBox r0 q → f q = g q) →
      ∀ q, inBox r0 q → runLocal ops f q = runLocal ops g q := by
  intro ops
  induction ops with
  | nil => intro f g _ hfg q hq; exact hfg q hq
  | cons op rest ih =>
    intro f g hops hfg q hq
    show runLocal rest (applyLocal f op) q = runLocal rest (applyLocal g op) q
    refine ih _ _ (fun o ho => hops o (List.mem_cons_of_mem _ ho)) ?_ q hq
    intro q' hq'
    have hop := hops op (List.mem_cons_self _ _)
    cases op with
    | zero p =>
      simp only [applyLocal]
      split_ifs with h
      · rfl
      · exact hfg q' hq'
    | scale v p =>
      simp only [applyLocal]
      split_ifs with h
      · rw [hfg p hop]
      · exact hfg q' hq'

/-- A pixel no box position maps onto is untouched by `border_radius`. -/
theorem border_radius_untouched (img : Image) (r0 : ℕ)
    (coord : ℕ × ℕ → ℕ × ℕ) (x y : ℕ)
    (h : ∀ q, inBox r0 q → coord q ≠ (x, y)) :
    (border_radius img r0 coord).pix x y = img.pix x y :=
  foldl_applyAOp_untouched coord (borderRadiusOps r0) img x y
    (fun op hop => h op.pos (borderRadiusOps_pos_inBox r0 op hop))

/-- Through an injective corner map, `border_radius` computes the local
alpha-plane run. -/
theorem border_radius_sim (img : Image) (r0 : ℕ) (coord : ℕ × ℕ → ℕ × ℕ)
    (hinj : ∀ q q', inBox r0 q → inBox r0 q' → coord q = coord q' → q = q')
    (q : ℕ × ℕ) (hq : inBox r0 q) :
    ((border_radius img r0 coord).pix (coord q).1 (coord q).2).a =
      runLocal (borderRadiusOps r0)
        (fun q' => (img.pix (coord q').1 (coord q').2).a) q :=
  foldl_applyAOp_localSim coord r0 hinj (borderRadiusOps r0)
    (borderRadiusOps_pos_inBox r0) img _ (fun _ _ => rfl) q hq

/-- A top-left pixel of the rounded output is the local run over the
top-left corner's alpha plane. -/
theorem roundedEq_top_left (img : Image) (r x y : ℕ) (hw : 2 * r ≤ img.w)
    (hh : 2 * r ≤ img.h) (hx : x < r) (hy : y < r) :
    ((roundedEq img r).pix x y).a =
      runLocal (borderRadiusOps r)
        (fun q => (img.pix (cTL img q).1 (cTL img q).2).a) (x + 1, y + 1) := by
  have h4 : (roundedEq img r).pix x y =
      (border_radius (border_radius (border_radius img r (cTL img)) r
        (cTR img)) r (cBR img)).pix x y := by
    unfold roundedEq
    refine border_radius_untouched _ _ _ _ _ ?_
    intro q hq heq
    have h2 := congrArg Prod.snd heq
    unfold cBL at h2
    dsimp only at h2
    unfold inBox at hq
    omega
  have h3 : (border_radius (border_radius (border_radius img r (cTL img)) r
      (cTR img)) r (cBR img)).pix x y =
      (border_radius (border_radius img r (cTL img)) r (cTR img)).pix x y := by
    refine border_radius_untouched _ _ _ _ _ ?_
    intro q hq heq
    have h2 := congrArg Prod.snd heq
    unfold cBR at h2
    dsimp only at h2
    unfold inBox at hq
    omega
  have h2' : (border_radius (border_radius img r (cTL img)) r
      (cTR img)).pix x y = (border_radius img r (cTL img)).pix x y := by
    refine border_radius_untouched _ _ _ _ _ ?_
    intro q hq heq
    have h1 := congrArg Prod.fst heq
    unfold cTR at h1
    dsimp only at h1
    unfold inBox at hq
    omega
  rw [h4, h3, h2']
  have hinj : ∀ q q', inBox r q → inBox r q' → cTL img q = cTL img q' → q = q' := by
    intro q q' hq hq' he
    have he1 := congrArg Prod.fst he
    have he2 := congrArg Prod.snd he
    unfold cTL at he1 he2
    dsimp only at he1 he2
    unfold inBox at hq hq'
    exact Prod.ext_iff.mpr ⟨by omega, by omega⟩
  have hq : inBox r (x + 1, y + 1) := by
    unfold inBox
    dsimp only
    omega
  exact border_radius_sim img r (cTL img) hinj (x + 1, y + 1) hq

/-- A top-right pixel of the rounded output is the local run over the
top-right corner's alpha plane of the original buffer (the top-left pass
does not reach the top-right box). -/
theorem roundedEq_top_right (img : Image) (r x y : ℕ) (hw : 2 * r ≤ img.w)
    (hh : 2 * r ≤ img.h) (hx1 : img.w ≤ x + r) (hx2 : x < img.w) (hy : y < r) :
    ((roundedEq img r).pix x y).a =
      runLocal (borderRadiusOps r)
        (fun q => (img.pix (cTR img q).1 (cTR img q).2).a)
        (img.w - x, y + 1) := by
  have h4 : (roundedEq img r).pix x y =
      (border_radius (border_radius (border_radius img r (cTL img)) r
        (cTR img)) r (cBR img)).pix x y := by
    unfold roundedEq
    refine border_radius_untouched _ _ _ _ _ ?_
    intro q hq heq
    have h1 := congrArg Prod.fst heq
    unfold cBL at h1
    dsimp only at h1
    unfold inBox at hq
    omega
  have h3 : (border_radius (border_radius (border_radius img r (cTL img)) r
      (cTR img)) r (cBR img)).pix x y =
      (border_radius (border_radius img r (cTL img)) r (cTR img)).pix x y := by
    refine border_radius_untouched _ _ _ _ _ ?_
    intro q hq heq
    have h2 := congrArg Prod.snd heq
    unfold cBR at h2
    dsimp only at h2
    unfold inBox at hq
    omega
  rw [h4, h3]
  have hinj : ∀ q q', inBox r q → inBox r q' → cTR img q = cTR img q' → q = q' := by
    intro q q' hq hq' he
    have he1 := congrArg Prod.fst he
    have he2 := congrArg Prod.snd he
    unfold cTR at he1 he2
    dsimp only at he1 he2
    unfold inBox at hq hq'
    exact Prod.ext_iff.mpr ⟨by omega, by omega⟩
  have hq : inBox r (img.w - x, y + 1) := by
    unfold inBox
    dsimp only
    omega
  have hpos : cTR img (img.w - x, y + 1) = (x, y) := by
    unfold cTR
    dsimp only
    rw [Nat.sub_sub_self (le_of_lt hx2)]
    rfl
  have hsim := border_radius_sim (border_radius img r (cTL img)) r (cTR img)
    hinj (img.w - x, y + 1) hq
  rw [hpos] at hsim
  dsimp only at hsim
  rw [hsim]
  refine runLocal_congr r (borderRadiusOps r) _ _
    (borderRadiusOps_pos_inBox r) ?_ (img.w - x, y + 1) hq
  intro q' hq'
  dsimp only
  refine congrArg Pixel.a ?_
  refine border_radius_untouched img r (cTL img) (cTR img q').1
    (cTR img q').2 ?_
  intro q'' hq'' heq
  have h1 := congrArg Prod.fst heq
  unfold cTL at h1
  unfold cTR at h1
  dsimp only at h1
  unfold inBox at hq' hq''
  omega

/-- A bottom-right pixel of the rounded output is the local run over the
bottom-right corner's alpha plane of the original buffer. -/
theorem roundedEq_bottom_right (img : Image) (r x y : ℕ) (hw : 2 * r ≤ img.w)
    (hh : 2 * r ≤ img.h) (hx1 : img.w ≤ x + r) (hx2 : x < img.w)
    (hy1 : img.h ≤ y + r) (hy2 : y < img.h) :
    ((roundedEq img r).pix x y).a =
      runLocal (borderRadiusOps r)
        (fun q => (img.pix (cBR img q).1 (cBR img q).2).a)
        (img.w - x, img.h - y) := by
  have h4 : (roundedEq img r).pix x y =
      (border_radius (border_radius (border_radius img r (cTL img)) r
        (cTR img)) r (cBR img)).pix x y := by
    unfold roundedEq
    refine border_radius_untouched _ _ _ _ _ ?_
    intro q hq heq
    have h1 := congrArg Prod.fst heq
    unfold cBL at h1
    dsimp only at h1
    unfold inBox at hq
    omega
  rw [h4]
  have hinj : ∀ q q', inBox r q → inBox r q' → cBR img q = cBR img q' → q = q' := by
    intro q q' hq hq' he
    have he1 := congrArg Prod.fst he
    have he2 := congrArg Prod.snd he
    unfold cBR at he1 he2
    dsimp only at he1 he2
    unfold inBox at hq hq'
    exact Prod.ext_iff.mpr ⟨by omega, by omega⟩
  have hq : inBox r (img.w - x, img.h - y) := by
    unfold inBox
    dsimp only
    omega
  have hpos : cBR img (img.w - x, img.h - y) = (x, y) := by
    unfold cBR
    dsimp only
    rw [Nat.sub_sub_self (le_of_lt hx2), Nat.sub_sub_self (le_of_lt hy2)]
  have hsim := border_radius_sim
    (border_radius (border_radius img r (cTL img)) r (cTR img)) r (cBR img)
    hinj (img.w - x, img.h - y) hq
  rw [hpos] at hsim
  dsimp only at hsim
  rw [hsim]
  refine runLocal_congr r (borderRadiusOps r) _ _
    (borderRadiusOps_pos_inBox r) ?_ (img.w - x, img.h - y) hq
  intro q' hq'
  dsimp only
  rw [border_radius_untouched (border_radius img r (cTL img)) r (cTR img)
    (cBR img q').1 (cBR img q').2 ?_]
  rotate_left
  · intro q'' hq'' heq
    have h2 := congrArg Prod.snd heq
    unfold cTR at h2
    unfold cBR at h2
    dsimp only at h2
    unfold inBox at hq' hq''
    omega
  rw [border_radius_untouched img r (cTL img)
    (cBR img q').1 (cBR img q').2 ?_]
  · intro q'' hq'' heq
    have h1 := congrArg Prod.fst heq
    unfold cTL at h1
    unfold cBR at h1
    dsimp only at h1
    unfold inBox at hq' hq''
    omega

/-- A bottom-left pixel of the rounded output is the local run over the
bottom-left corner's alpha plane of the original buffer. -/
theorem roundedEq_bottom_left (img : Image) (r x y : ℕ) (hw : 2 * r ≤ img.w)
    (hh : 2 * r ≤ img.h) (hx : x < r) (hy1 : img.h ≤ y + r) (hy2 : y < img.h) :
    ((roundedEq img r).pix x y).a =
      runLocal (borderRadiusOps r)
        (fun q => (img.pix (cBL img q).1 (cBL img q).2).a)
        (x + 1, img.h - y) := by
  have hinj : ∀ q q', inBox r q → inBox r q' → cBL img q = cBL img q' → q = q' := by
    intro q q' hq hq' he
    have he1 := congrArg Prod.fst he
    have he2 := congrArg Prod.snd he
    unfold cBL at he1 he2
    dsimp only at he1 he2
    unfold inBox at hq hq'
    exact Prod.ext_iff.mpr ⟨by omega, by omega⟩
  have hq : inBox r (x + 1, img.h - y) := by
    unfold inBox
    dsimp only
    omega
  have hpos : cBL img (x + 1, img.h - y) = (x, y) := by
    unfold cBL
    dsimp only
    rw [Nat.sub_sub_self (le_of_lt hy2)]
    rfl
  have hsim := border_radius_sim
    (border_radius (border_radius (border_radius img r (cTL img)) r
      (cTR img)) r (cBR img)) r (cBL img) hinj (x + 1, img.h - y) hq
  rw [hpos] at hsim
  dsimp only at hsim
  rw [show ((roundedEq img r).pix x y).a =
    ((border_radius (border_radius (border_radius (border_radius img r
      (cTL img)) r (cTR img)) r (cBR img)) r (cBL img)).pix x y).a from rfl]
  rw [hsim]
  refine runLocal_congr r (borderRadiusOps r) _ _
    (borderRadiusOps_pos_inBox r) ?_ (x + 1, img.h - y) hq
  intro q' hq'
  dsimp only
  rw [border_radius_untouched
    (border_radius (border_radius img r (cTL img)) r (cTR img)) r (cBR img)
    (cBL img q').1 (cBL img q').2 ?_]
  rotate_left
  · intro q'' hq'' heq
    have h1 := congrArg Prod.fst heq
    unfold cBR at h1
    unfold cBL at h1
    dsimp only at h1
    unfold inBox at hq' hq''
    omega
  rw [border_radius_untouched (border_radius img r (cTL img)) r (cTR img)
    (cBL img q').1 (cBL img q').2 ?_]
  rotate_left
  · intro q'' hq'' heq
    have h1 := congrArg Prod.fst heq
    unfold cTR at h1
    unfold cBL at h1
    dsimp only at h1
    unfold inBox at hq' hq''
    omega
  rw [border_radius_untouched img r (cTL img)
    (cBL img q').1 (cBL img q').2 ?_]
  · intro q'' hq'' heq
    have h2 := congrArg Prod.snd heq
    unfold cTL at h2
    unfold cBL at h2
    dsimp only at h2
    unfold inBox at hq' hq''
    omega

/-- A pixel in the middle band (horizontally or vertically clear of the
corner boxes) is untouched by all four passes. -/
theorem roundedEq_middle (img : Image) (r x y : ℕ) (hw : 2 * r ≤ img.w)
    (hh : 2 * r ≤ img.h)
    (hmid : (r ≤ x ∧ x + r < img.w) ∨ (r ≤ y ∧ y + r < img.h)) :
    (roundedEq img r).pix x y = img.pix x y := by
  unfold roundedEq
  rw [border_radius_untouched _ r (cBL img) x y ?_]
  rotate_left
  · intro q hq heq
    have h1 := congrArg Prod.fst heq
    have h2 := congrArg Prod.snd heq
    unfold cBL at h1 h2
    dsimp only at h1 h2
    unfold inBox at hq
    rcases hmid with h | h <;> omega
  rw [border_radius_untouched _ r (cBR img) x y ?_]
  rotate_left
  · intro q hq heq
    have h1 := congrArg Prod.fst heq
    have h2 := congrArg Prod.snd heq
    unfold cBR at h1 h2
    dsimp only at h1 h2
    unfold inBox at hq
    rcases hmid with h | h <;> omega
  rw [border_radius_untouched _ r (cTR img) x y ?_]
  rotate_left
  · intro q hq heq
    have h1 := congrArg Prod.fst heq
    have h2 := congrArg Prod.snd heq
    unfold cTR at h1 h2
    dsimp only at h1 h2
    unfold inBox at hq
    rcases hmid with h | h <;> omega
  rw [border_radius_untouched _ r (cTL img) x y ?_]
  · intro q hq heq
    have h1 := congrArg Prod.fst heq
    have h2 := congrArg Prod.snd heq
    unfold cTL at h1 h2
    dsimp only at h1 h2
    unfold inBox at hq
    rcases hmid with h | h <;> omega

/-- C2 (amended): under the corner-radii invariant `2r ≤ w` and `2r ≤ h`,
`round` succeeds, and every pixel cell lying strictly outside the four
corner quarter-disks of radius `r` — the cell at offset `(i, j)` from the
corner with `i² + j² > r²`, whose closed square is strictly outside the
disk — ends with alpha `0` at all four corners. -/
theorem c2_outside_corner_disks_cleared (img : Image) (r : ℕ)
    (hw : 2 * r ≤ img.w) (hh : 2 * r ≤ img.h) :
    ∃ out, roundIm img (r, r, r, r) = some out ∧
      ∀ i j, i < r → j < r → r * r < i * i + j * j →
        (out.pix (r - 1 - i) (r - 1 - j)).a = 0 ∧
        (out.pix (img.w - r + i) (r - 1 - j)).a = 0 ∧
        (out.pix (img.w - r + i) (img.h - r + j)).a = 0 ∧
        (out.pix (r - 1 - i) (img.h - r + j)).a = 0 := by
  refine ⟨roundedEq img r, roundIm_rrrr img r hw hh, ?_⟩
  intro i j hi hj hout
  have hzero := borderRadiusOps_cover r i j hi hj hout
  refine ⟨?_, ?_, ?_, ?_⟩
  · have hc := roundedEq_top_left img r (r - 1 - i) (r - 1 - j) hw hh
      (by omega) (by omega)
    rw [show r - 1 - i + 1 = r - i by omega,
        show r - 1 - j + 1 = r - j by omega] at hc
    rw [hc]
    exact runLocal_eq_zero_of_mem (r - i, r - j) _ _ hzero
  · have hc := roundedEq_top_right img r (img.w - r + i) (r - 1 - j) hw hh
      (by omega) (by omega) (by omega)
    rw [show img.w - (img.w - r + i) = r - i by omega,
        show r - 1 - j + 1 = r - j by omega] at hc
    rw [hc]
    exact runLocal_eq_zero_of_mem (r - i, r - j) _ _ hzero
  · have hc := roundedEq_bottom_right img r (img.w - r + i) (img.h - r + j)
      hw hh (by omega) (by omega) (by omega) (by omega)
    rw [show img.w - (img.w - r + i) = r - i by omega,
        show img.h - (img.h - r + j) = r - j by omega] at hc
    rw [hc]
    exact runLocal_eq_zero_of_mem (r - i, r - j) _ _ hzero
  · have hc := roundedEq_bottom_left img r (r - 1 - i) (img.h - r + j) hw hh
      (by omega) (by omega) (by omega)
    rw [show r - 1 - i + 1 = r - i by omega,
        show img.h - (img.h - r + j) = r - j by omega] at hc
    rw [hc]
    exact runLocal_eq_zero_of_mem (r - i, r - j) _ _ hzero

theorem c2_outside_corner_disks_cleared_witness :
    (2 * 4 ≤ (imgOpaque 8 8).w ∧ 2 * 4 ≤ (imgOpaque 8 8).h) ∧
    (∃ out, roundIm (imgOpaque 8 8) (4, 4, 4, 4) = some out ∧
      ∀ i j, i < 4 → j < 4 → 4 * 4 < i * i + j * j →
        (out.pix (4 - 1 - i) (4 - 1 - j)).a = 0 ∧
        (out.pix ((imgOpaque 8 8).w - 4 + i) (4 - 1 - j)).a = 0 ∧
        (out.pix ((imgOpaque 8 8).w - 4 + i) ((imgOpaque 8 8).h - 4 + j)).a = 0 ∧
        (out.pix (4 - 1 - i) ((imgOpaque 8 8).h - 4 + j)).a = 0) :=
  ⟨⟨by decide, by decide⟩,
   c2_outside_corner_disks_cleared (imgOpaque 8 8) 4 (by decide) (by decide)⟩

/-- C6 (amended): on a buffer whose alpha channel is symmetric under
horizontal and vertical reflection, `round` with four equal radii satisfying
the corner-radii invariant produces an output whose alpha channel is again
symmetric under both reflections — the four corners are exact mirror
images. -/
theorem c6_corners_mirror_on_symmetric_input (img : Image) (r : ℕ)
    (hw : 2 * r ≤ img.w) (hh : 2 * r ≤ img.h)
    (hsymH : ∀ x y, x < img.w → y < img.h →
      (img.pix (img.w - 1 - x) y).a = (img.pix x y).a)
    (hsymV : ∀ x y, x < img.w → y < img.h →
      (img.pix x (img.h - 1 - y)).a = (img.pix x y).a) :
    ∃ out, roundIm img (r, r, r, r) = some out ∧
      (∀ x y, x < img.w → y < img.h →
        (out.pix (img.w - 1 - x) y).a = (out.pix x y).a) ∧
      (∀ x y, x < img.w → y < img.h →
        (out.pix x (img.h - 1 - y)).a = (out.pix x y).a) := by
  have hfTR : ∀ q, inBox r q →
      (img.pix (cTR img q).1 (cTR img q).2).a =
      (img.pix (cTL img q).1 (cTL img q).2).a := by
    intro q hq
    unfold cTR cTL
    dsimp only
    unfold inBox at hq
    have hs := hsymH (q.1 - 1) (q.2 - 1) (by omega) (by omega)
    rw [show img.w - 1 - (q.1 - 1) = img.w - q.1 by omega] at hs
    exact hs
  have hfBR : ∀ q, inBox r q →
      (img.pix (cBR img q).1 (cBR img q).2).a =
      (img.pix (cBL img q).1 (cBL img q).2).a := by
    intro q hq
    unfold cBR cBL
    dsimp only
    unfold inBox at hq
    have hs := hsymH (q.1 - 1) (img.h - q.2) (by omega) (by omega)
    rw [show img.w - 1 - (q.1 - 1) = img.w - q.1 by omega] at hs
    exact hs
  have hfBL : ∀ q, inBox r q →
      (img.pix (cBL img q).1 (cBL img q).2).a =
      (img.pix (cTL img q).1 (cTL img q).2).a := by
    intro q hq
    unfold cBL cTL
    dsimp only
    unfold inBox at hq
    have hs := hsymV (q.1 - 1) (q.2 - 1) (by omega) (by omega)
    rw [show img.h - 1 - (q.2 - 1) = img.h - q.2 by omega] at hs
    exact hs
  have hfBRTR : ∀ q, inBox r q →
      (img.pix (cBR img q).1 (cBR img q).2).a =
      (img.pix (cTR img q).1 (cTR img q).2).a := by
    intro q hq
    unfold cBR cTR
    dsimp only
    unfold inBox at hq
    have hs := hsymV (img.w - q.1) (q.2 - 1) (by omega) (by omega)
    rw [show img.h - 1 - (q.2 - 1) = img.h - q.2 by omega] at hs
    exact hs
  refine ⟨roundedEq img r, roundIm_rrrr img r hw hh, ?_, ?_⟩
  · intro x y hxw hyh
    by_cases hyr : y < r
    · by_cases hxl : x < r
      · rw [roundedEq_top_right img r (img.w - 1 - x) y hw hh (by omega)
            (by omega) hyr,
          roundedEq_top_left img r x y hw hh hxl hyr,
          show img.w - (img.w - 1 - x) = x + 1 by omega]
        exact runLocal_congr r (borderRadiusOps r) _ _
          (borderRadiusOps_pos_inBox r) hfTR (x + 1, y + 1)
          (by unfold inBox; dsimp only; omega)
      · by_cases hxr : img.w ≤ x + r
        · rw [roundedEq_top_left img r (img.w - 1 - x) y hw hh (by omega) hyr,
            roundedEq_top_right img r x y hw hh hxr hxw hyr,
            show img.w - 1 - x + 1 = img.w - x by omega]
          exact (runLocal_congr r (borderRadiusOps r) _ _
            (borderRadiusOps_pos_inBox r) hfTR (img.w - x, y + 1)
            (by unfold inBox; dsimp only; omega)).symm
        · push_neg at hxl hxr
          rw [roundedEq_middle img r (img.w - 1 - x) y hw hh
            (Or.inl ⟨by omega, by omega⟩),
            roundedEq_middle img r x y hw hh (Or.inl ⟨hxl, hxr⟩)]
          exact hsymH x y hxw hyh
    · by_cases hyb : img.h ≤ y + r
      · by_cases hxl : x < r
        · rw [roundedEq_bottom_right img r (img.w - 1 - x) y hw hh (by omega)
              (by omega) hyb hyh,
            roundedEq_bottom_left img r x y hw hh hxl hyb hyh,
            show img.w - (img.w - 1 - x) = x + 1 by omega]
          exact runLocal_congr r (borderRadiusOps r) _ _
            (borderRadiusOps_pos_inBox r) hfBR (x + 1, img.h - y)
            (by unfold inBox; dsimp only; omega)
        · by_cases hxr : img.w ≤ x + r
          · rw [roundedEq_bottom_left img r (img.w - 1 - x) y hw hh
                (by omega) hyb hyh,
              roundedEq_bottom_right img r x y hw hh hxr hxw hyb hyh,
              show img.w - 1 - x + 1 = img.w - x by omega]
            exact (runLocal_congr r (borderRadiusOps r) _ _
              (borderRadiusOps_pos_inBox r) hfBR (img.w - x, img.h - y)
              (by unfold inBox; dsimp only; omega)).symm
          · push_neg at hxl hxr
            rw [roundedEq_middle img r (img.w - 1 - x) y hw hh
              (Or.inl ⟨by omega, by omega⟩),
              roundedEq_middle img r x y hw hh (Or.inl ⟨hxl, hxr⟩)]
            exact hsymH x y hxw hyh
      · push_neg at hyr hyb
        rw [roundedEq_middle img r (img.w - 1 - x) y hw hh (Or.inr ⟨hyr, hyb⟩),
          roundedEq_middle img r x y hw hh (Or.inr ⟨hyr, hyb⟩)]
        exact hsymH x y hxw hyh
  · intro x y hxw hyh
    by_cases hxl : x < r
    · by_cases hyt : y < r
      · rw [roundedEq_bottom_left img r x (img.h - 1 - y) hw hh hxl (by omega)
            (by omega),
          roundedEq_top_left img r x y hw hh hxl hyt,
          show img.h - (img.h - 1 - y) = y + 1 by omega]
        exact runLocal_congr r (borderRadiusOps r) _ _
          (borderRadiusOps_pos_inBox r) hfBL (x + 1, y + 1)
          (by unfold inBox; dsimp only; omega)
      · by_cases hyb : img.h ≤ y + r
        · rw [roundedEq_top_left img r x (img.h - 1 - y) hw hh hxl (by omega),
            roundedEq_bottom_left img r x y hw hh hxl hyb hyh,
            show img.h - 1 - y + 1 = img.h - y by omega]
          exact (runLocal_congr r (borderRadiusOps r) _ _
            (borderRadiusOps_pos_inBox r) hfBL (x + 1, img.h - y)
            (by unfold inBox; dsimp only; omega)).symm
        · push_neg at hyt hyb
          rw [roundedEq_middle img r x (img.h - 1 - y) hw hh
            (Or.inr ⟨by omega, by omega⟩),
            roundedEq_middle img r x y hw hh (Or.inr ⟨hyt, hyb⟩)]
          exact hsymV x y hxw hyh
    · by_cases hxr : img.w ≤ x + r
      · by_cases hyt : y < r
        · rw [roundedEq_bottom_right img r x (img.h - 1 - y) hw hh hxr hxw
              (by omega) (by omega),
            roundedEq_top_right img r x y hw hh hxr hxw hyt,
            show img.h - (img.h - 1 - y) = y + 1 by omega]
          exact runLocal_congr r (borderRadiusOps r) _ _
            (borderRadiusOps_pos_inBox r) hfBRTR (img.w - x, y + 1)
            (by unfold inBox; dsimp only; omega)
        · by_cases hyb : img.h ≤ y + r
          · rw [roundedEq_top_right img r x (img.h - 1 - y) hw hh hxr hxw
                (by omega),
              roundedEq_bottom_right img r x y hw hh hxr hxw hyb hyh,
              show img.h - 1 - y + 1 = img.h - y by omega]
            exact (runLocal_congr r (borderRadiusOps r) _ _
              (borderRadiusOps_pos_inBox r) hfBRTR (img.w - x, img.h - y)
              (by unfold inBox; dsimp only; omega)).symm
          · push_neg at hyt hyb
            rw [roundedEq_middle img r x (img.h - 1 - y) hw hh
              (Or.inr ⟨by omega, by omega⟩),
              roundedEq_middle img r x y hw hh (Or.inr ⟨hyt, hyb⟩)]
            exact hsymV x y hxw hyh
      · push_neg at hxl hxr
        rw [roundedEq_middle img r x (img.h - 1 - y) hw hh (Or.inl ⟨hxl, hxr⟩),
          roundedEq_middle img r x y hw hh (Or.inl ⟨hxl, hxr⟩)]
        exact hsymV x y hxw hyh

theorem c6_corners_mirror_on_symmetric_input_witness :
    (2 * 2 ≤ (imgOpaque 4 4).w ∧ 2 * 2 ≤ (imgOpaque 4 4).h) ∧
    (∃ out, roundIm (imgOpaque 4 4) (2, 2, 2, 2) = some out ∧
      (∀ x y, x < (imgOpaque 4 4).w → y < (imgOpaque 4 4).h →
        (out.pix ((imgOpaque 4 4).w - 1 - x) y).a = (out.pix x y).a) ∧
      (∀ x y, x < (imgOpaque 4 4).w → y < (imgOpaque 4 4).h →
        (out.pix x ((imgOpaque 4 4).h - 1 - y)).a = (out.pix x y).a)) :=
  ⟨⟨by decide, by decide⟩,
   c6_corners_mirror_on_symmetric_input (imgOpaque 4 4) 2 (by decide) (by decide)
     (fun _ _ _ _ => rfl) (fun _ _ _ _ => rfl)⟩

end Fweh
